import Mathlib

/-!
The limiters of golim: blocking and non-blocking concurrency limiters.

A shallow embedding of `blocking.go` and `non_blocking.go`.

Every call of `Do` is a small sequential program whose control points are the
source lines between two accesses of shared state.  A limiter together with
the control points of all calls made on it forms a system state; one step of
the system is one call executing the statement at its control point.  The
interleavings of concurrent `Do` calls are the lists of such steps.

The mutex and the condition variable come from Go's `sync` package and are
modelled by their documented contract: `Lock` proceeds only when the mutex is
free, `Wait` atomically unlocks and suspends the caller, and `Signal` wakes
one suspended goroutine if there is any.  A callback is opaque: it is invoked,
and later it either returns or panics; a callback that never terminates simply
never takes its finishing step.
-/

namespace Golim

/-! ## Machine integers -/

/-- Go's `uint`, taken at 64 bits: values are the naturals below `2 ^ 64`. -/
def uintMod : Nat := 2 ^ 64

/-- The statement `n++` on a `uint`. -/
def uintInc (n : Nat) : Nat := (n + 1) % uintMod

/-- The statement `n--` on a `uint`; it wraps around at zero. -/
def uintDec (n : Nat) : Nat := (uintMod + n - 1) % uintMod

/-- How an invoked callback ends: it returns, or it panics with a value. -/
inductive Outcome where
  | returned : Outcome
  | panicked (v : Nat) : Outcome
  deriving DecidableEq, Repr

/-! ## blocking.go -/

/-- The struct `Blocking`: the mutex `cv.L`, the goroutines suspended on `cv`,
and the two counters. -/
structure Blocking where
  locked : Bool
  notify : List Nat
  count : Nat
  max : Nat
  deriving DecidableEq, Repr

/-- `NewBlocking` (blocking.go:19-28). -/
def NewBlocking (max : Nat) : Except String Blocking :=
  if max = 0 then
    Except.error "cannot create limiter with max equal to 0"
  else
    Except.ok { locked := false, notify := [], count := 0, max := max }

/-- Control points of one call of `Blocking.Do` (blocking.go:32-61), named by
the line of the statement that is executed next. -/
inductive BPc where
  /-- About to run `l.cv.L.Lock()`, line 35. -/
  | lock35 : BPc
  /-- Holding the lock, about to evaluate `l.count >= l.max`, line 36. -/
  | loop36 : BPc
  /-- Suspended inside `l.cv.Wait()`, line 37; the lock is released. -/
  | wait37 : BPc
  /-- Awoken inside `l.cv.Wait()`, about to lock again before it returns. -/
  | relock37 : BPc
  /-- Holding the lock, about to run `l.count++`, line 39. -/
  | inc39 : BPc
  /-- Holding the lock, about to run `l.cv.L.Unlock()`, line 40. -/
  | unlock40 : BPc
  /-- About to register the deferred function and invoke `callback()`,
  lines 46-60. -/
  | defer46 : BPc
  /-- The callback is executing. -/
  | running : BPc
  /-- Deferred function, about to run `l.cv.L.Lock()`, line 49. -/
  | dlock49 (o : Outcome) : BPc
  /-- Deferred function, holding the lock, about to run `l.count--`, line 50. -/
  | dec50 (o : Outcome) : BPc
  /-- Deferred function, about to run `l.cv.L.Unlock()`, line 51. -/
  | dunlock51 (o : Outcome) : BPc
  /-- Deferred function, about to run `l.cv.Signal()`, line 56. -/
  | signal56 (o : Outcome) : BPc
  /-- The call of `Do` has ended: it returned, or the callback's panic is
  propagating to the caller of `Do`. -/
  | done (o : Outcome) : BPc
  deriving DecidableEq, Repr

/-- A blocking limiter and the control point of every call made on it so far;
a call is named by its position in `pcs`. -/
structure BSys where
  l : Blocking
  pcs : List BPc
  deriving DecidableEq, Repr

/-- One step of one call of `Blocking.Do`. -/
inductive BAct where
  /-- A goroutine calls `l.Do(callback)`. -/
  | call : BAct
  /-- Call `c` acquires `l.cv.L` (lines 35 and 49, and inside `Wait`). -/
  | lock (c : Nat) : BAct
  /-- Call `c` evaluates the loop condition of line 36 and either enters
  `Wait` or leaves the loop. -/
  | test (c : Nat) : BAct
  /-- Call `c` runs `l.count++`, line 39. -/
  | inc (c : Nat) : BAct
  /-- Call `c` runs `l.cv.L.Unlock()` (lines 40 and 51). -/
  | unlock (c : Nat) : BAct
  /-- Call `c` registers the deferred function and invokes the callback. -/
  | invoke (c : Nat) : BAct
  /-- The callback of call `c` ends with outcome `o`. -/
  | finish (c : Nat) (o : Outcome) : BAct
  /-- Call `c` runs `l.count--`, line 50. -/
  | dec (c : Nat) : BAct
  /-- Call `c` runs `l.cv.Signal()`, line 56; `w` is the suspended call that
  is woken, `none` when no call is suspended. -/
  | signal (c : Nat) (w : Option Nat) : BAct
  deriving DecidableEq, Repr

/-- The step function of the blocking limiter: `none` when the step is not
enabled in the state. -/
def bstep (s : BSys) : BAct → Option BSys
  | BAct.call => some { s with pcs := s.pcs ++ [BPc.lock35] }
  | BAct.lock c =>
    if s.l.locked then none
    else
      match s.pcs[c]? with
      | some BPc.lock35 =>
        some { l := { s.l with locked := true }, pcs := s.pcs.set c BPc.loop36 }
      | some BPc.relock37 =>
        some { l := { s.l with locked := true }, pcs := s.pcs.set c BPc.loop36 }
      | some (BPc.dlock49 o) =>
        some { l := { s.l with locked := true }, pcs := s.pcs.set c (BPc.dec50 o) }
      | _ => none
  | BAct.test c =>
    match s.pcs[c]? with
    | some BPc.loop36 =>
      if s.l.count ≥ s.l.max then
        some { l := { s.l with locked := false, notify := s.l.notify ++ [c] },
               pcs := s.pcs.set c BPc.wait37 }
      else
        some { s with pcs := s.pcs.set c BPc.inc39 }
    | _ => none
  | BAct.inc c =>
    match s.pcs[c]? with
    | some BPc.inc39 =>
      some { l := { s.l with count := uintInc s.l.count }, pcs := s.pcs.set c BPc.unlock40 }
    | _ => none
  | BAct.unlock c =>
    match s.pcs[c]? with
    | some BPc.unlock40 =>
      some { l := { s.l with locked := false }, pcs := s.pcs.set c BPc.defer46 }
    | some (BPc.dunlock51 o) =>
      some { l := { s.l with locked := false }, pcs := s.pcs.set c (BPc.signal56 o) }
    | _ => none
  | BAct.invoke c =>
    match s.pcs[c]? with
    | some BPc.defer46 => some { s with pcs := s.pcs.set c BPc.running }
    | _ => none
  | BAct.finish c o =>
    match s.pcs[c]? with
    | some BPc.running => some { s with pcs := s.pcs.set c (BPc.dlock49 o) }
    | _ => none
  | BAct.dec c =>
    match s.pcs[c]? with
    | some (BPc.dec50 o) =>
      some { l := { s.l with count := uintDec s.l.count }, pcs := s.pcs.set c (BPc.dunlock51 o) }
    | _ => none
  | BAct.signal c w =>
    match s.pcs[c]? with
    | some (BPc.signal56 o) =>
      match w with
      | none =>
        if s.l.notify = [] then some { s with pcs := s.pcs.set c (BPc.done o) } else none
      | some t =>
        if t ∈ s.l.notify then
          some { l := { s.l with notify := s.l.notify.erase t },
                 pcs := (s.pcs.set t BPc.relock37).set c (BPc.done o) }
        else none
    | _ => none

/-- Run a schedule: a list of steps, executed from left to right. -/
def brun (s : BSys) : List BAct → Option BSys
  | [] => some s
  | a :: as => (bstep s a).bind fun s' => brun s' as

/-- The states a blocking limiter built by `NewBlocking max` can be in, for a
`max` that is a `uint`. -/
def BReachable (max : Nat) (s : BSys) : Prop :=
  max < uintMod ∧
    ∃ l sched, NewBlocking max = Except.ok l ∧ brun { l := l, pcs := [] } sched = some s

/-- The call is inside the mutex. -/
def BPc.holds : BPc → Bool
  | BPc.loop36 => true
  | BPc.inc39 => true
  | BPc.unlock40 => true
  | BPc.dec50 _ => true
  | BPc.dunlock51 _ => true
  | _ => false

/-- The call is admitted: its `count++` has run and its `count--` has not. -/
def BPc.admitted : BPc → Bool
  | BPc.unlock40 => true
  | BPc.defer46 => true
  | BPc.running => true
  | BPc.dlock49 _ => true
  | BPc.dec50 _ => true
  | _ => false

/-- The call is executing admitted work: its callback has been invoked and its
release (`count--`) has not run. -/
def BPc.working : BPc → Bool
  | BPc.running => true
  | BPc.dlock49 _ => true
  | BPc.dec50 _ => true
  | _ => false

/-- The invariant of the blocking limiter built with `max`. -/
structure BInv (max : Nat) (s : BSys) : Prop where
  max_eq : s.l.max = max
  max_pos : 1 ≤ max
  max_lt : max < uintMod
  count_eq : s.l.count = s.pcs.countP BPc.admitted
  count_le : s.l.count ≤ max
  hold_locked : ∀ (i : Nat) (p : BPc), s.pcs[i]? = some p → p.holds = true → s.l.locked = true
  hold_unique : ∀ (i j : Nat) (p q : BPc), s.pcs[i]? = some p → s.pcs[j]? = some q →
    p.holds = true → q.holds = true → i = j
  inc_lt : ∀ i : Nat, s.pcs[i]? = some BPc.inc39 → s.l.count < max
  notify_wait : ∀ c : Nat, c ∈ s.l.notify ↔ s.pcs[c]? = some BPc.wait37
  notify_nodup : s.l.notify.Nodup

/-- The limiter `NewBlocking max` returns, with no call made on it yet. -/
def binit (max : Nat) : BSys :=
  { l := { locked := false, notify := [], count := 0, max := max }, pcs := [] }

/-- What a step of the blocking limiter contributes to the history of a call:
its admission, the invocation and the end of its callback, its release and its
signal. -/
inductive BEv where
  | inc : BEv
  | invoke : BEv
  | finish (o : Outcome) : BEv
  | dec : BEv
  | signal : BEv
  deriving DecidableEq, Repr

/-- The event of call `c` in the step `a`, if the step is one of these. -/
def bev (c : Nat) : BAct → Option BEv
  | BAct.inc d => if d = c then some BEv.inc else none
  | BAct.invoke d => if d = c then some BEv.invoke else none
  | BAct.finish d o => if d = c then some (BEv.finish o) else none
  | BAct.dec d => if d = c then some BEv.dec else none
  | BAct.signal d _ => if d = c then some BEv.signal else none
  | _ => none

/-- The history of call `c` along a schedule. -/
def btrace (c : Nat) (sched : List BAct) : List BEv :=
  sched.filterMap (bev c)

/-- The history a call has when it stands at a control point. -/
def BPc.history : Option BPc → List BEv
  | some BPc.unlock40 => [BEv.inc]
  | some BPc.defer46 => [BEv.inc]
  | some BPc.running => [BEv.inc, BEv.invoke]
  | some (BPc.dlock49 o) => [BEv.inc, BEv.invoke, BEv.finish o]
  | some (BPc.dec50 o) => [BEv.inc, BEv.invoke, BEv.finish o]
  | some (BPc.dunlock51 o) => [BEv.inc, BEv.invoke, BEv.finish o, BEv.dec]
  | some (BPc.signal56 o) => [BEv.inc, BEv.invoke, BEv.finish o, BEv.dec]
  | some (BPc.done o) => [BEv.inc, BEv.invoke, BEv.finish o, BEv.dec, BEv.signal]
  | _ => []

/-- The steps of call `c` from line 35 to the invocation of its callback, when
it does not have to wait. -/
def benter (c : Nat) : List BAct :=
  [BAct.lock c, BAct.test c, BAct.inc c, BAct.unlock c, BAct.invoke c]

/-- The steps of call `c` from the end of its callback, with outcome `o`, to the
end of `Do`; `w` is the call its signal wakes. -/
def brelease (c : Nat) (o : Outcome) (w : Option Nat) : List BAct :=
  [BAct.finish c o, BAct.lock c, BAct.dec c, BAct.unlock c, BAct.signal c w]

/-- A whole call of `Do` that runs alone from line 35 to its end, its callback
ending with `o`. -/
def bsolo (c : Nat) (o : Outcome) : List BAct :=
  benter c ++ brelease c o none

/-- Calls `c`, `c + 1`, ... are made one after the other, each running alone to
its end, with the callback outcomes `os`. -/
def bseq (c : Nat) : List Outcome → List BAct
  | [] => []
  | o :: os => BAct.call :: (bsolo c o ++ bseq (c + 1) os)

/-- Calls `c`, ..., `c + n - 1` are made and admitted one after the other; their
callbacks are left running. -/
def bfill (c : Nat) : Nat → List BAct
  | 0 => []
  | n + 1 => BAct.call :: (benter c ++ bfill (c + 1) n)

/-- Run a schedule all of whose steps are taken while the limiter is full
(`count >= max`): `none` also when a step would be taken with `count < max`. -/
def brunFull (s : BSys) : List BAct → Option BSys
  | [] => some s
  | a :: as =>
    if s.l.count ≥ s.l.max then (bstep s a).bind fun s' => brunFull s' as else none

/-- The steps by which the call `i`, standing at `p` inside the mutex, leaves
the mutex: it finishes its critical section and unlocks, or enters `Wait`. -/
def bleave (s : BSys) (i : Nat) : BPc → List BAct
  | BPc.loop36 =>
    if s.l.count ≥ s.l.max then [BAct.test i]
    else [BAct.test i, BAct.inc i, BAct.unlock i]
  | BPc.inc39 => [BAct.inc i, BAct.unlock i]
  | BPc.unlock40 => [BAct.unlock i]
  | BPc.dec50 _ => [BAct.dec i, BAct.unlock i]
  | BPc.dunlock51 _ => [BAct.unlock i]
  | _ => []

/-- The steps of the deferred function of call `c`, lines 49-56; `w` is the
call its signal wakes. -/
def bcleanup (c : Nat) (w : Option Nat) : List BAct :=
  [BAct.lock c, BAct.dec c, BAct.unlock c, BAct.signal c w]

/-- The steps of call `c` from its check at line 36, when the check finds
`count < max`, to the invocation of its callback. -/
def bpass (c : Nat) : List BAct :=
  [BAct.test c, BAct.inc c, BAct.unlock c, BAct.invoke c]

/-! ## non_blocking.go -/

/-- The struct `NonBlocking`: the mutex `lock` and the two counters. -/
structure NonBlocking where
  locked : Bool
  count : Nat
  max : Nat
  deriving DecidableEq, Repr

/-- `NewNonBlocking` (non_blocking.go:21-29). -/
def NewNonBlocking (max : Nat) : Except String NonBlocking :=
  if max = 0 then
    Except.error "cannot create limiter with max equal to 0"
  else
    Except.ok { locked := false, count := 0, max := max }

/-- Control points of one call of `NonBlocking.Do` (non_blocking.go:35-64),
named by the line of the statement that is executed next. -/
inductive NPc where
  /-- About to run `l.lock.Lock()`, line 38. -/
  | lock38 : NPc
  /-- Holding the lock, about to evaluate `l.count >= l.max`, line 39. -/
  | test39 : NPc
  /-- Over the limit, holding the lock, about to run `l.lock.Unlock()`, line 42. -/
  | unlock42 : NPc
  /-- About to invoke `overLimit()`, line 43. -/
  | over43 : NPc
  /-- The callback `overLimit` is executing. -/
  | overRunning : NPc
  /-- The call of `Do` has ended on the over-limit path, line 44: it returned,
  or the panic of `overLimit` is propagating to the caller of `Do`. -/
  | ret44 (o : Outcome) : NPc
  /-- Holding the lock, about to run `l.count++`, line 49. -/
  | inc49 : NPc
  /-- Holding the lock, about to run `l.lock.Unlock()`, line 50. -/
  | unlock50 : NPc
  /-- About to register the deferred function and invoke `underLimit()`,
  lines 54-63. -/
  | defer54 : NPc
  /-- The callback `underLimit` is executing. -/
  | underRunning : NPc
  /-- Deferred function, about to run `l.lock.Lock()`, line 57. -/
  | dlock57 (o : Outcome) : NPc
  /-- Deferred function, holding the lock, about to run `l.count--`, line 58. -/
  | dec58 (o : Outcome) : NPc
  /-- Deferred function, about to run `l.lock.Unlock()`, line 59. -/
  | dunlock59 (o : Outcome) : NPc
  /-- The call of `Do` has ended on the under-limit path, line 64: it returned,
  or the panic of `underLimit` is propagating to the caller of `Do`. -/
  | end64 (o : Outcome) : NPc
  deriving DecidableEq, Repr

/-- A non-blocking limiter and the control point of every call made on it so
far; a call is named by its position in `pcs`. -/
structure NSys where
  l : NonBlocking
  pcs : List NPc
  deriving DecidableEq, Repr

/-- One step of one call of `NonBlocking.Do`. -/
inductive NAct where
  /-- A goroutine calls `l.Do(underLimit, overLimit)`. -/
  | call : NAct
  /-- Call `c` acquires `l.lock` (lines 38 and 57). -/
  | lock (c : Nat) : NAct
  /-- Call `c` evaluates the condition of line 39. -/
  | test (c : Nat) : NAct
  /-- Call `c` runs `l.lock.Unlock()` (lines 42, 50 and 59). -/
  | unlock (c : Nat) : NAct
  /-- Call `c` invokes `overLimit`, line 43. -/
  | over (c : Nat) : NAct
  /-- Call `c` runs `l.count++`, line 49. -/
  | inc (c : Nat) : NAct
  /-- Call `c` registers the deferred function and invokes `underLimit`. -/
  | under (c : Nat) : NAct
  /-- The callback that call `c` invoked ends with outcome `o`. -/
  | finish (c : Nat) (o : Outcome) : NAct
  /-- Call `c` runs `l.count--`, line 58. -/
  | dec (c : Nat) : NAct
  deriving DecidableEq, Repr

/-- The step function of the non-blocking limiter: `none` when the step is not
enabled in the state. -/
def nstep (s : NSys) : NAct → Option NSys
  | NAct.call => some { s with pcs := s.pcs ++ [NPc.lock38] }
  | NAct.lock c =>
    if s.l.locked then none
    else
      match s.pcs[c]? with
      | some NPc.lock38 =>
        some { l := { s.l with locked := true }, pcs := s.pcs.set c NPc.test39 }
      | some (NPc.dlock57 o) =>
        some { l := { s.l with locked := true }, pcs := s.pcs.set c (NPc.dec58 o) }
      | _ => none
  | NAct.test c =>
    match s.pcs[c]? with
    | some NPc.test39 =>
      if s.l.count ≥ s.l.max then
        some { s with pcs := s.pcs.set c NPc.unlock42 }
      else
        some { s with pcs := s.pcs.set c NPc.inc49 }
    | _ => none
  | NAct.unlock c =>
    match s.pcs[c]? with
    | some NPc.unlock42 =>
      some { l := { s.l with locked := false }, pcs := s.pcs.set c NPc.over43 }
    | some NPc.unlock50 =>
      some { l := { s.l with locked := false }, pcs := s.pcs.set c NPc.defer54 }
    | some (NPc.dunlock59 o) =>
      some { l := { s.l with locked := false }, pcs := s.pcs.set c (NPc.end64 o) }
    | _ => none
  | NAct.over c =>
    match s.pcs[c]? with
    | some NPc.over43 => some { s with pcs := s.pcs.set c NPc.overRunning }
    | _ => none
  | NAct.inc c =>
    match s.pcs[c]? with
    | some NPc.inc49 =>
      some { l := { s.l with count := uintInc s.l.count }, pcs := s.pcs.set c NPc.unlock50 }
    | _ => none
  | NAct.under c =>
    match s.pcs[c]? with
    | some NPc.defer54 => some { s with pcs := s.pcs.set c NPc.underRunning }
    | _ => none
  | NAct.finish c o =>
    match s.pcs[c]? with
    | some NPc.overRunning => some { s with pcs := s.pcs.set c (NPc.ret44 o) }
    | some NPc.underRunning => some { s with pcs := s.pcs.set c (NPc.dlock57 o) }
    | _ => none
  | NAct.dec c =>
    match s.pcs[c]? with
    | some (NPc.dec58 o) =>
      some { l := { s.l with count := uintDec s.l.count }, pcs := s.pcs.set c (NPc.dunlock59 o) }
    | _ => none

/-- Run a schedule: a list of steps, executed from left to right. -/
def nrun (s : NSys) : List NAct → Option NSys
  | [] => some s
  | a :: as => (nstep s a).bind fun s' => nrun s' as

/-- The states a non-blocking limiter built by `NewNonBlocking max` can be in,
for a `max` that is a `uint`. -/
def NReachable (max : Nat) (s : NSys) : Prop :=
  max < uintMod ∧
    ∃ l sched, NewNonBlocking max = Except.ok l ∧ nrun { l := l, pcs := [] } sched = some s

/-- The limiter `NewNonBlocking max` returns, with no call made on it yet. -/
def ninit (max : Nat) : NSys :=
  { l := { locked := false, count := 0, max := max }, pcs := [] }

/-- The call is inside the mutex. -/
def NPc.holds : NPc → Bool
  | NPc.test39 => true
  | NPc.unlock42 => true
  | NPc.inc49 => true
  | NPc.unlock50 => true
  | NPc.dec58 _ => true
  | NPc.dunlock59 _ => true
  | _ => false

/-- The call is admitted: its `count++` has run and its `count--` has not. -/
def NPc.admitted : NPc → Bool
  | NPc.unlock50 => true
  | NPc.defer54 => true
  | NPc.underRunning => true
  | NPc.dlock57 _ => true
  | NPc.dec58 _ => true
  | _ => false

/-- The call is executing admitted work: `underLimit` has been invoked and the
release (`count--`) has not run. -/
def NPc.working : NPc → Bool
  | NPc.underRunning => true
  | NPc.dlock57 _ => true
  | NPc.dec58 _ => true
  | _ => false

/-- The invariant of the non-blocking limiter built with `max`. -/
structure NInv (max : Nat) (s : NSys) : Prop where
  max_eq : s.l.max = max
  max_pos : 1 ≤ max
  max_lt : max < uintMod
  count_eq : s.l.count = s.pcs.countP NPc.admitted
  count_le : s.l.count ≤ max
  hold_locked : ∀ (i : Nat) (p : NPc), s.pcs[i]? = some p → p.holds = true → s.l.locked = true
  hold_unique : ∀ (i j : Nat) (p q : NPc), s.pcs[i]? = some p → s.pcs[j]? = some q →
    p.holds = true → q.holds = true → i = j
  inc_lt : ∀ i : Nat, s.pcs[i]? = some NPc.inc49 → s.l.count < max
  over_ge : ∀ i : Nat, s.pcs[i]? = some NPc.unlock42 → max ≤ s.l.count

/-- What a step of the non-blocking limiter contributes to the history of a
call: the result of its check (`true` when `count < max`), its admission, the
invocation of either callback, the end of the callback, and its release. -/
inductive NEv where
  | test (under : Bool) : NEv
  | inc : NEv
  | under : NEv
  | over : NEv
  | finish (o : Outcome) : NEv
  | dec : NEv
  deriving DecidableEq, Repr

/-- The event of call `c` in the step `a` taken in state `s`, if the step is
one of these. -/
def nev (c : Nat) (s : NSys) : NAct → Option NEv
  | NAct.test d => if d = c then some (NEv.test (decide (s.l.count < s.l.max))) else none
  | NAct.inc d => if d = c then some NEv.inc else none
  | NAct.under d => if d = c then some NEv.under else none
  | NAct.over d => if d = c then some NEv.over else none
  | NAct.finish d o => if d = c then some (NEv.finish o) else none
  | NAct.dec d => if d = c then some NEv.dec else none
  | _ => none

/-- The history of call `c` along a schedule run from `s`. -/
def ntrace (c : Nat) (s : NSys) : List NAct → List NEv
  | [] => []
  | a :: as =>
    match nstep s a with
    | none => []
    | some s' => (nev c s a).toList ++ ntrace c s' as

/-- The history a call has when it stands at a control point. -/
def NPc.history : Option NPc → List NEv
  | some NPc.unlock42 => [NEv.test false]
  | some NPc.over43 => [NEv.test false]
  | some NPc.overRunning => [NEv.test false, NEv.over]
  | some (NPc.ret44 o) => [NEv.test false, NEv.over, NEv.finish o]
  | some NPc.inc49 => [NEv.test true]
  | some NPc.unlock50 => [NEv.test true, NEv.inc]
  | some NPc.defer54 => [NEv.test true, NEv.inc]
  | some NPc.underRunning => [NEv.test true, NEv.inc, NEv.under]
  | some (NPc.dlock57 o) => [NEv.test true, NEv.inc, NEv.under, NEv.finish o]
  | some (NPc.dec58 o) => [NEv.test true, NEv.inc, NEv.under, NEv.finish o]
  | some (NPc.dunlock59 o) => [NEv.test true, NEv.inc, NEv.under, NEv.finish o, NEv.dec]
  | some (NPc.end64 o) => [NEv.test true, NEv.inc, NEv.under, NEv.finish o, NEv.dec]
  | _ => []

/-- The steps of call `c` from line 38 to the invocation of `underLimit`. -/
def nenter (c : Nat) : List NAct :=
  [NAct.lock c, NAct.test c, NAct.inc c, NAct.unlock c, NAct.under c]

/-- The steps of call `c` from the end of `underLimit`, with outcome `o`, to
the end of `Do`. -/
def nrelease (c : Nat) (o : Outcome) : List NAct :=
  [NAct.finish c o, NAct.lock c, NAct.dec c, NAct.unlock c]

/-- A whole call of `Do` on the under-limit path, its callback ending with `o`. -/
def nsoloUnder (c : Nat) (o : Outcome) : List NAct :=
  nenter c ++ nrelease c o

/-- The steps of call `c` from line 38 to the invocation of `overLimit`. -/
def nrefuse (c : Nat) : List NAct :=
  [NAct.lock c, NAct.test c, NAct.unlock c, NAct.over c]

/-- A whole call of `Do` on the over-limit path, its callback ending with `o`. -/
def nsoloOver (c : Nat) (o : Outcome) : List NAct :=
  nrefuse c ++ [NAct.finish c o]

/-- Calls `c`, `c + 1`, ... are made one after the other, each running alone to
its end on the under-limit path, with the callback outcomes `os`. -/
def nseq (c : Nat) : List Outcome → List NAct
  | [] => []
  | o :: os => NAct.call :: (nsoloUnder c o ++ nseq (c + 1) os)

/-- Calls `c`, ..., `c + n - 1` are made and admitted one after the other; their
callbacks are left running. -/
def nfill (c : Nat) : Nat → List NAct
  | 0 => []
  | n + 1 => NAct.call :: (nenter c ++ nfill (c + 1) n)

/-- The steps of call `c` from its check at line 39, when the check finds
`count >= max`, to the end of `Do`, the callback `overLimit` ending with `o`. -/
def nreject (c : Nat) (o : Outcome) : List NAct :=
  [NAct.test c, NAct.unlock c, NAct.over c, NAct.finish c o]

/-- When the mutex is locked, some call is inside it. -/
def BHeld (s : BSys) : Prop :=
  s.l.locked = true → ∃ (i : Nat) (p : BPc), s.pcs[i]? = some p ∧ p.holds = true

/-! ## Theorems -/

/-! ### Lists of control points -/

theorem getElem?_set_cases {α : Type} {xs : List α} {c i : Nat} {a p : α}
    (h : (xs.set c a)[i]? = some p) :
    (i = c ∧ p = a) ∨ (i ≠ c ∧ xs[i]? = some p) := by
  rw [List.getElem?_set] at h
  by_cases hic : c = i
  · left
    rw [if_pos hic] at h
    split at h
    · exact ⟨hic.symm, (Option.some.inj h).symm⟩
    · exact absurd h (by simp)
  · right
    rw [if_neg hic] at h
    exact ⟨fun e => hic e.symm, h⟩

theorem getElem?_set_self_of_some {α : Type} {xs : List α} {c : Nat} {a b : α}
    (h : xs[c]? = some a) : (xs.set c b)[c]? = some b := by
  obtain ⟨hlt, _⟩ := List.getElem?_eq_some.mp h
  rw [List.getElem?_set, if_pos rfl, if_pos hlt]

theorem countP_set_of_some {α : Type} (f : α → Bool) {xs : List α} {c : Nat} {a : α} (b : α)
    (h : xs[c]? = some a) :
    (xs.set c b).countP f + (if f a = true then 1 else 0)
      = xs.countP f + (if f b = true then 1 else 0) := by
  obtain ⟨hlt, hget⟩ := List.getElem?_eq_some.mp h
  have h1 := List.countP_set f xs c b hlt
  have h2 : (if f xs[c] = true then 1 else 0) ≤ xs.countP f :=
    List.boole_getElem_le_countP f xs c hlt
  rw [hget] at h1 h2
  omega

theorem countP_pos_of_some {α : Type} (f : α → Bool) {xs : List α} {c : Nat} {a : α}
    (h : xs[c]? = some a) (ha : f a = true) : 1 ≤ xs.countP f := by
  obtain ⟨hlt, hget⟩ := List.getElem?_eq_some.mp h
  have h2 : (if f xs[c] = true then 1 else 0) ≤ xs.countP f :=
    List.boole_getElem_le_countP f xs c hlt
  rw [hget, if_pos ha] at h2
  exact h2

/-! ### The invariant of the blocking limiter -/

/-- A step that moves one call from control point `p` to `p'` and changes the
limiter to `l'` keeps the invariant, under local conditions on `p`, `p'`, `l'`. -/
theorem BInv.local {max : Nat} {s : BSys} (h : BInv max s) {c : Nat} {p : BPc}
    (hc : s.pcs[c]? = some p) (l' : Blocking) (p' : BPc)
    (hmax : l'.max = s.l.max)
    (hcount : l'.count + (if p.admitted = true then 1 else 0)
      = s.l.count + (if p'.admitted = true then 1 else 0))
    (hle : l'.count ≤ max)
    (hlock : p'.holds = true → l'.locked = true)
    (hent : p'.holds = true → p.holds = true ∨ s.l.locked = false)
    (hkeep : l'.locked = true ∨ p.holds = true ∨ s.l.locked = false)
    (hinc : p' = BPc.inc39 → l'.count < max)
    (hcnt : p.holds = true ∨ l'.count ≤ s.l.count)
    (hnd : l'.notify.Nodup)
    (hn : ∀ x, x ∈ l'.notify ↔ if x = c then p' = BPc.wait37 else x ∈ s.l.notify) :
    BInv max { l := l', pcs := s.pcs.set c p' } := by
  have others : ∀ i q, i ≠ c → s.pcs[i]? = some q → q.holds = true →
      p.holds = false ∧ s.l.locked = true := by
    intro i q hic hi hq
    refine ⟨?_, h.hold_locked i q hi hq⟩
    cases hp : p.holds with
    | false => rfl
    | true => exact absurd (h.hold_unique i c q p hi hc hq hp) hic
  refine ⟨by simpa [hmax] using h.max_eq, h.max_pos, h.max_lt, ?_, hle, ?_, ?_, ?_, ?_, hnd⟩
  · have h1 := countP_set_of_some BPc.admitted p' hc
    have h2 := h.count_eq
    show l'.count = (s.pcs.set c p').countP BPc.admitted
    omega
  · intro i q hi hq
    show l'.locked = true
    rcases getElem?_set_cases hi with ⟨_, rfl⟩ | ⟨hic, hi'⟩
    · exact hlock hq
    · obtain ⟨hp, hl⟩ := others i q hic hi' hq
      rcases hkeep with hk | hk | hk
      · exact hk
      · rw [hp] at hk; exact absurd hk (by simp)
      · rw [hl] at hk; exact absurd hk (by simp)
  · intro i j q r hi hj hq hr
    rcases getElem?_set_cases hi with ⟨hic, rfl⟩ | ⟨hic, hi'⟩
    · rcases getElem?_set_cases hj with ⟨hjc, _⟩ | ⟨hjc, hj'⟩
      · rw [hic, hjc]
      · obtain ⟨hp, hl⟩ := others j r hjc hj' hr
        rcases hent hq with hk | hk
        · rw [hp] at hk; exact absurd hk (by simp)
        · rw [hl] at hk; exact absurd hk (by simp)
    · rcases getElem?_set_cases hj with ⟨hjc, rfl⟩ | ⟨hjc, hj'⟩
      · obtain ⟨hp, hl⟩ := others i q hic hi' hq
        rcases hent hr with hk | hk
        · rw [hp] at hk; exact absurd hk (by simp)
        · rw [hl] at hk; exact absurd hk (by simp)
      · exact h.hold_unique i j q r hi' hj' hq hr
  · intro i hi
    show l'.count < max
    rcases getElem?_set_cases hi with ⟨_, hp'⟩ | ⟨hic, hi'⟩
    · exact hinc hp'.symm
    · obtain ⟨hp, _⟩ := others i BPc.inc39 hic hi' rfl
      have := h.inc_lt i hi'
      rcases hcnt with hk | hk
      · rw [hp] at hk; exact absurd hk (by simp)
      · omega
  · intro x
    show x ∈ l'.notify ↔ (s.pcs.set c p')[x]? = some BPc.wait37
    rw [hn x]
    by_cases hx : x = c
    · subst hx
      rw [if_pos rfl, getElem?_set_self_of_some hc]
      constructor
      · intro e; rw [e]
      · intro e; exact Option.some.inj e
    · rw [if_neg hx, List.getElem?_set_ne (fun e => hx e.symm)]
      exact h.notify_wait x

theorem uintInc_of_lt {n m : Nat} (h : n < m) (hm : m < uintMod) : uintInc n = n + 1 := by
  unfold uintInc
  exact Nat.mod_eq_of_lt (by omega)

theorem uintDec_of_pos {n : Nat} (h : 1 ≤ n) (hn : n < uintMod) : uintDec n = n - 1 := by
  unfold uintDec
  have e : uintMod + n - 1 = (n - 1) + uintMod := by omega
  rw [e, Nat.add_mod_right]
  exact Nat.mod_eq_of_lt (by omega)

/-- The special case of `BInv.local` for a step that leaves the suspended calls
alone. -/
theorem BInv.local_same {max : Nat} {s : BSys} (h : BInv max s) {c : Nat} {p : BPc}
    (hc : s.pcs[c]? = some p) (l' : Blocking) (p' : BPc)
    (hmax : l'.max = s.l.max)
    (hcount : l'.count + (if p.admitted = true then 1 else 0)
      = s.l.count + (if p'.admitted = true then 1 else 0))
    (hle : l'.count ≤ max)
    (hlock : p'.holds = true → l'.locked = true)
    (hent : p'.holds = true → p.holds = true ∨ s.l.locked = false)
    (hkeep : l'.locked = true ∨ p.holds = true ∨ s.l.locked = false)
    (hinc : p' = BPc.inc39 → l'.count < max)
    (hcnt : p.holds = true ∨ l'.count ≤ s.l.count)
    (hnot : l'.notify = s.l.notify) (hp : p ≠ BPc.wait37) (hp' : p' ≠ BPc.wait37) :
    BInv max { l := l', pcs := s.pcs.set c p' } := by
  refine h.local hc l' p' hmax hcount hle hlock hent hkeep hinc hcnt ?_ ?_
  · rw [hnot]; exact h.notify_nodup
  · intro x
    rw [hnot]
    by_cases hx : x = c
    · subst hx
      rw [if_pos rfl, h.notify_wait x, hc]
      constructor
      · intro e; exact absurd (Option.some.inj e) hp
      · intro e; exact absurd e hp'
    · rw [if_neg hx]

theorem BInv.count_pos {max : Nat} {s : BSys} (h : BInv max s) {c : Nat} {p : BPc}
    (hc : s.pcs[c]? = some p) (hp : p.admitted = true) : 1 ≤ s.l.count := by
  rw [h.count_eq]
  exact countP_pos_of_some BPc.admitted hc hp

theorem BInv.count_lt_mod {max : Nat} {s : BSys} (h : BInv max s) : s.l.count < uintMod :=
  Nat.lt_of_le_of_lt h.count_le h.max_lt

theorem getElem?_append_singleton_cases {α : Type} {xs : List α} {i : Nat} {a p : α}
    (h : (xs ++ [a])[i]? = some p) :
    xs[i]? = some p ∨ (i = xs.length ∧ p = a) := by
  by_cases hi : i < xs.length
  · left
    rwa [List.getElem?_append_left hi] at h
  · right
    have hle : xs.length ≤ i := Nat.le_of_not_lt hi
    rw [List.getElem?_append_right hle] at h
    obtain ⟨hlt, hget⟩ := List.getElem?_eq_some.mp h
    simp at hlt
    refine ⟨by omega, ?_⟩
    simp at hget
    exact hget.symm

theorem BInv.call {max : Nat} {s : BSys} (h : BInv max s) :
    BInv max { s with pcs := s.pcs ++ [BPc.lock35] } := by
  refine ⟨h.max_eq, h.max_pos, h.max_lt, ?_, h.count_le, ?_, ?_, ?_, ?_, h.notify_nodup⟩
  · show s.l.count = (s.pcs ++ [BPc.lock35]).countP BPc.admitted
    rw [List.countP_append, h.count_eq]
    simp [BPc.admitted]
  · intro i p hi hp
    rcases getElem?_append_singleton_cases hi with hi' | ⟨_, rfl⟩
    · exact h.hold_locked i p hi' hp
    · exact absurd hp (by simp [BPc.holds])
  · intro i j p q hi hj hp hq
    rcases getElem?_append_singleton_cases hi with hi' | ⟨_, rfl⟩
    · rcases getElem?_append_singleton_cases hj with hj' | ⟨_, rfl⟩
      · exact h.hold_unique i j p q hi' hj' hp hq
      · exact absurd hq (by simp [BPc.holds])
    · exact absurd hp (by simp [BPc.holds])
  · intro i hi
    rcases getElem?_append_singleton_cases hi with hi' | ⟨_, e⟩
    · exact h.inc_lt i hi'
    · exact absurd e (by simp)
  · intro c
    show c ∈ s.l.notify ↔ (s.pcs ++ [BPc.lock35])[c]? = some BPc.wait37
    rw [h.notify_wait c]
    constructor
    · intro e
      obtain ⟨hlt, _⟩ := List.getElem?_eq_some.mp e
      rwa [List.getElem?_append_left hlt]
    · intro e
      rcases getElem?_append_singleton_cases e with e' | ⟨_, e'⟩
      · exact e'
      · exact absurd e' (by simp)

theorem BInv.step {max : Nat} {s s' : BSys} {a : BAct} (h : BInv max s)
    (hs : bstep s a = some s') : BInv max s' := by
  cases a with
  | call =>
    simp only [bstep, Option.some.injEq] at hs
    subst hs
    exact h.call
  | lock c =>
    simp only [bstep] at hs
    split at hs
    · exact absurd hs (by simp)
    · rename_i hl
      have hl' : s.l.locked = false := by simpa using hl
      split at hs
      · rename_i hc
        simp only [Option.some.injEq] at hs
        subst hs
        exact h.local_same hc _ _ rfl (by simp [BPc.admitted]) h.count_le (fun _ => rfl)
          (fun _ => Or.inr hl') (Or.inl rfl) (by simp) (Or.inr (Nat.le_refl _)) rfl
          (by simp) (by simp)
      · rename_i hc
        simp only [Option.some.injEq] at hs
        subst hs
        exact h.local_same hc _ _ rfl (by simp [BPc.admitted]) h.count_le (fun _ => rfl)
          (fun _ => Or.inr hl') (Or.inl rfl) (by simp) (Or.inr (Nat.le_refl _)) rfl
          (by simp) (by simp)
      · rename_i o hc
        simp only [Option.some.injEq] at hs
        subst hs
        exact h.local_same hc _ _ rfl (by simp [BPc.admitted]) h.count_le (fun _ => rfl)
          (fun _ => Or.inr hl') (Or.inl rfl) (by simp) (Or.inr (Nat.le_refl _)) rfl
          (by simp) (by simp)
      · exact absurd hs (by simp)
  | test c =>
    simp only [bstep] at hs
    split at hs
    · rename_i hc
      have hcn : c ∉ s.l.notify := by
        rw [h.notify_wait c, hc]; simp
      split at hs
      · simp only [Option.some.injEq] at hs
        subst hs
        refine h.local hc _ _ rfl (by simp [BPc.admitted]) h.count_le (by simp [BPc.holds])
          (by simp [BPc.holds]) (by simp [BPc.holds]) (by simp) (Or.inr (Nat.le_refl _)) ?_ ?_
        · exact List.Nodup.append h.notify_nodup (List.nodup_singleton c)
            (by simpa using hcn)
        · intro x
          by_cases hx : x = c
          · simp [hx]
          · simp [hx]
      · rename_i hlt
        simp only [Option.some.injEq] at hs
        subst hs
        have hlt' : s.l.count < max := by
          have := h.max_eq
          omega
        exact h.local_same hc _ _ rfl (by simp [BPc.admitted]) h.count_le
          (fun _ => h.hold_locked c _ hc rfl)
          (by simp [BPc.holds]) (by simp [BPc.holds]) (fun _ => hlt')
          (Or.inr (Nat.le_refl _)) rfl (by simp) (by simp)
    · exact absurd hs (by simp)
  | inc c =>
    simp only [bstep] at hs
    split at hs
    · rename_i hc
      simp only [Option.some.injEq] at hs
      subst hs
      have hlt := h.inc_lt c hc
      have hinc := uintInc_of_lt hlt h.max_lt
      exact h.local_same hc _ _ rfl (by simp [BPc.admitted, hinc])
        (by simp only [hinc]; omega)
        (fun _ => h.hold_locked c _ hc rfl)
        (by simp [BPc.holds]) (by simp [BPc.holds]) (by simp)
        (Or.inl rfl) rfl (by simp) (by simp)
    · exact absurd hs (by simp)
  | unlock c =>
    simp only [bstep] at hs
    split at hs
    · rename_i hc
      simp only [Option.some.injEq] at hs
      subst hs
      exact h.local_same hc _ _ rfl (by simp [BPc.admitted]) h.count_le (by simp [BPc.holds])
        (by simp [BPc.holds]) (by simp [BPc.holds]) (by simp) (Or.inr (Nat.le_refl _)) rfl
        (by simp) (by simp)
    · rename_i o hc
      simp only [Option.some.injEq] at hs
      subst hs
      exact h.local_same hc _ _ rfl (by simp [BPc.admitted]) h.count_le (by simp [BPc.holds])
        (by simp [BPc.holds]) (by simp [BPc.holds]) (by simp) (Or.inr (Nat.le_refl _)) rfl
        (by simp) (by simp)
    · exact absurd hs (by simp)
  | invoke c =>
    simp only [bstep] at hs
    split at hs
    · rename_i hc
      simp only [Option.some.injEq] at hs
      subst hs
      exact h.local_same hc _ _ rfl (by simp [BPc.admitted]) h.count_le (by simp [BPc.holds])
        (by simp [BPc.holds]) (by simp [BPc.holds]) (by simp) (Or.inr (Nat.le_refl _)) rfl
        (by simp) (by simp)
    · exact absurd hs (by simp)
  | finish c o =>
    simp only [bstep] at hs
    split at hs
    · rename_i hc
      simp only [Option.some.injEq] at hs
      subst hs
      exact h.local_same hc _ _ rfl (by simp [BPc.admitted]) h.count_le (by simp [BPc.holds])
        (by simp [BPc.holds]) (by simp [BPc.holds]) (by simp) (Or.inr (Nat.le_refl _)) rfl
        (by simp) (by simp)
    · exact absurd hs (by simp)
  | dec c =>
    simp only [bstep] at hs
    split at hs
    · rename_i o hc
      simp only [Option.some.injEq] at hs
      subst hs
      have hpos := h.count_pos hc rfl
      have hdec := uintDec_of_pos hpos h.count_lt_mod
      have hle := h.count_le
      exact h.local_same hc _ _ rfl (by simp only [hdec, BPc.admitted]; simp; omega)
        (by simp only [hdec]; omega)
        (fun _ => h.hold_locked c _ hc rfl)
        (by simp [BPc.holds]) (by simp [BPc.holds]) (by simp)
        (Or.inl rfl) rfl (by simp) (by simp)
    · exact absurd hs (by simp)
  | signal c w =>
    simp only [bstep] at hs
    split at hs
    · rename_i o hc
      split at hs
      · split at hs
        · simp only [Option.some.injEq] at hs
          subst hs
          exact h.local_same hc _ _ rfl (by simp [BPc.admitted]) h.count_le
            (by simp [BPc.holds]) (by simp [BPc.holds]) (by simp [BPc.holds]) (by simp)
            (Or.inr (Nat.le_refl _)) rfl (by simp) (by simp)
        · exact absurd hs (by simp)
      · rename_i t
        split at hs
        · rename_i ht
          simp only [Option.some.injEq] at hs
          subst hs
          have htw : s.pcs[t]? = some BPc.wait37 := (h.notify_wait t).mp ht
          have htc : t ≠ c := by
            intro e
            rw [e, hc] at htw
            exact absurd htw (by simp)
          have h1 : BInv max
              (BSys.mk { s.l with notify := s.l.notify.erase t } (s.pcs.set t BPc.relock37)) := by
            refine h.local htw _ _ rfl (by simp [BPc.admitted]) h.count_le (by simp [BPc.holds])
              (by simp [BPc.holds]) ?_ (by simp) (Or.inr (Nat.le_refl _)) ?_ ?_
            · cases hl : s.l.locked with
              | true => exact Or.inl rfl
              | false => exact Or.inr (Or.inr rfl)
            · exact h.notify_nodup.erase t
            · intro x
              show x ∈ s.l.notify.erase t ↔ _
              rw [h.notify_nodup.mem_erase_iff]
              by_cases hx : x = t
              · simp [hx]
              · simp [hx]
          have hc' : (s.pcs.set t BPc.relock37)[c]? = some (BPc.signal56 o) := by
            rw [List.getElem?_set_ne htc]; exact hc
          exact h1.local_same hc' _ _ rfl (by simp [BPc.admitted]) h1.count_le
            (by simp [BPc.holds]) (by simp [BPc.holds]) (by simp [BPc.holds]) (by simp)
            (Or.inr (Nat.le_refl _)) rfl (by simp) (by simp)
        · exact absurd hs (by simp)
    · exact absurd hs (by simp)

/-! ### The invariant of the non-blocking limiter -/

/-- A step that moves one call from control point `p` to `p'` and changes the
limiter to `l'` keeps the invariant, under local conditions on `p`, `p'`, `l'`. -/
theorem NInv.local_nb {max : Nat} {s : NSys} (h : NInv max s) {c : Nat} {p : NPc}
    (hc : s.pcs[c]? = some p) (l' : NonBlocking) (p' : NPc)
    (hmax : l'.max = s.l.max)
    (hcount : l'.count + (if p.admitted = true then 1 else 0)
      = s.l.count + (if p'.admitted = true then 1 else 0))
    (hle : l'.count ≤ max)
    (hlock : p'.holds = true → l'.locked = true)
    (hent : p'.holds = true → p.holds = true ∨ s.l.locked = false)
    (hkeep : l'.locked = true ∨ p.holds = true ∨ s.l.locked = false)
    (hinc : p' = NPc.inc49 → l'.count < max)
    (hover : p' = NPc.unlock42 → max ≤ l'.count)
    (hcnt : p.holds = true ∨ l'.count = s.l.count) :
    NInv max { l := l', pcs := s.pcs.set c p' } := by
  have others : ∀ i q, i ≠ c → s.pcs[i]? = some q → q.holds = true →
      p.holds = false ∧ s.l.locked = true := by
    intro i q hic hi hq
    refine ⟨?_, h.hold_locked i q hi hq⟩
    cases hp : p.holds with
    | false => rfl
    | true => exact absurd (h.hold_unique i c q p hi hc hq hp) hic
  refine ⟨by simpa [hmax] using h.max_eq, h.max_pos, h.max_lt, ?_, hle, ?_, ?_, ?_, ?_⟩
  · have h1 := countP_set_of_some NPc.admitted p' hc
    have h2 := h.count_eq
    show l'.count = (s.pcs.set c p').countP NPc.admitted
    omega
  · intro i q hi hq
    show l'.locked = true
    rcases getElem?_set_cases hi with ⟨_, rfl⟩ | ⟨hic, hi'⟩
    · exact hlock hq
    · obtain ⟨hp, hl⟩ := others i q hic hi' hq
      rcases hkeep with hk | hk | hk
      · exact hk
      · rw [hp] at hk; exact absurd hk (by simp)
      · rw [hl] at hk; exact absurd hk (by simp)
  · intro i j q r hi hj hq hr
    rcases getElem?_set_cases hi with ⟨hic, rfl⟩ | ⟨hic, hi'⟩
    · rcases getElem?_set_cases hj with ⟨hjc, _⟩ | ⟨hjc, hj'⟩
      · rw [hic, hjc]
      · obtain ⟨hp, hl⟩ := others j r hjc hj' hr
        rcases hent hq with hk | hk
        · rw [hp] at hk; exact absurd hk (by simp)
        · rw [hl] at hk; exact absurd hk (by simp)
    · rcases getElem?_set_cases hj with ⟨hjc, rfl⟩ | ⟨hjc, hj'⟩
      · obtain ⟨hp, hl⟩ := others i q hic hi' hq
        rcases hent hr with hk | hk
        · rw [hp] at hk; exact absurd hk (by simp)
        · rw [hl] at hk; exact absurd hk (by simp)
      · exact h.hold_unique i j q r hi' hj' hq hr
  · intro i hi
    show l'.count < max
    rcases getElem?_set_cases hi with ⟨_, hp'⟩ | ⟨hic, hi'⟩
    · exact hinc hp'.symm
    · obtain ⟨hp, _⟩ := others i NPc.inc49 hic hi' rfl
      have := h.inc_lt i hi'
      rcases hcnt with hk | hk
      · rw [hp] at hk; exact absurd hk (by simp)
      · omega
  · intro i hi
    show max ≤ l'.count
    rcases getElem?_set_cases hi with ⟨_, hp'⟩ | ⟨hic, hi'⟩
    · exact hover hp'.symm
    · obtain ⟨hp, _⟩ := others i NPc.unlock42 hic hi' rfl
      have := h.over_ge i hi'
      rcases hcnt with hk | hk
      · rw [hp] at hk; exact absurd hk (by simp)
      · omega

theorem NInv.count_pos_nb {max : Nat} {s : NSys} (h : NInv max s) {c : Nat} {p : NPc}
    (hc : s.pcs[c]? = some p) (hp : p.admitted = true) : 1 ≤ s.l.count := by
  rw [h.count_eq]
  exact countP_pos_of_some NPc.admitted hc hp

theorem NInv.count_lt_mod_nb {max : Nat} {s : NSys} (h : NInv max s) : s.l.count < uintMod :=
  Nat.lt_of_le_of_lt h.count_le h.max_lt

theorem NInv.call_nb {max : Nat} {s : NSys} (h : NInv max s) :
    NInv max { s with pcs := s.pcs ++ [NPc.lock38] } := by
  refine ⟨h.max_eq, h.max_pos, h.max_lt, ?_, h.count_le, ?_, ?_, ?_, ?_⟩
  · show s.l.count = (s.pcs ++ [NPc.lock38]).countP NPc.admitted
    rw [List.countP_append, h.count_eq]
    simp [NPc.admitted]
  · intro i p hi hp
    rcases getElem?_append_singleton_cases hi with hi' | ⟨_, rfl⟩
    · exact h.hold_locked i p hi' hp
    · exact absurd hp (by simp [NPc.holds])
  · intro i j p q hi hj hp hq
    rcases getElem?_append_singleton_cases hi with hi' | ⟨_, rfl⟩
    · rcases getElem?_append_singleton_cases hj with hj' | ⟨_, rfl⟩
      · exact h.hold_unique i j p q hi' hj' hp hq
      · exact absurd hq (by simp [NPc.holds])
    · exact absurd hp (by simp [NPc.holds])
  · intro i hi
    rcases getElem?_append_singleton_cases hi with hi' | ⟨_, e⟩
    · exact h.inc_lt i hi'
    · exact absurd e (by simp)
  · intro i hi
    rcases getElem?_append_singleton_cases hi with hi' | ⟨_, e⟩
    · exact h.over_ge i hi'
    · exact absurd e (by simp)

theorem NInv.step_nb {max : Nat} {s s' : NSys} {a : NAct} (h : NInv max s)
    (hs : nstep s a = some s') : NInv max s' := by
  cases a with
  | call =>
    simp only [nstep, Option.some.injEq] at hs
    subst hs
    exact h.call_nb
  | lock c =>
    simp only [nstep] at hs
    split at hs
    · exact absurd hs (by simp)
    · rename_i hl
      have hl' : s.l.locked = false := by simpa using hl
      split at hs
      · rename_i hc
        simp only [Option.some.injEq] at hs
        subst hs
        exact h.local_nb hc _ _ rfl (by simp [NPc.admitted]) h.count_le (fun _ => rfl)
          (fun _ => Or.inr hl') (Or.inl rfl) (by simp) (by simp) (Or.inr rfl)
      · rename_i o hc
        simp only [Option.some.injEq] at hs
        subst hs
        exact h.local_nb hc _ _ rfl (by simp [NPc.admitted]) h.count_le (fun _ => rfl)
          (fun _ => Or.inr hl') (Or.inl rfl) (by simp) (by simp) (Or.inr rfl)
      · exact absurd hs (by simp)
  | test c =>
    simp only [nstep] at hs
    split at hs
    · rename_i hc
      have hm := h.max_eq
      split at hs
      · rename_i hge
        simp only [Option.some.injEq] at hs
        subst hs
        exact h.local_nb hc _ _ rfl (by simp [NPc.admitted]) h.count_le
          (fun _ => h.hold_locked c _ hc rfl)
          (by simp [NPc.holds]) (by simp [NPc.holds]) (by simp) (fun _ => by omega)
          (Or.inr rfl)
      · rename_i hlt
        simp only [Option.some.injEq] at hs
        subst hs
        exact h.local_nb hc _ _ rfl (by simp [NPc.admitted]) h.count_le
          (fun _ => h.hold_locked c _ hc rfl)
          (by simp [NPc.holds]) (by simp [NPc.holds]) (fun _ => by omega) (by simp)
          (Or.inr rfl)
    · exact absurd hs (by simp)
  | unlock c =>
    simp only [nstep] at hs
    split at hs
    · rename_i hc
      simp only [Option.some.injEq] at hs
      subst hs
      exact h.local_nb hc _ _ rfl (by simp [NPc.admitted]) h.count_le (by simp [NPc.holds])
        (by simp [NPc.holds]) (by simp [NPc.holds]) (by simp) (by simp) (Or.inr rfl)
    · rename_i hc
      simp only [Option.some.injEq] at hs
      subst hs
      exact h.local_nb hc _ _ rfl (by simp [NPc.admitted]) h.count_le (by simp [NPc.holds])
        (by simp [NPc.holds]) (by simp [NPc.holds]) (by simp) (by simp) (Or.inr rfl)
    · rename_i o hc
      simp only [Option.some.injEq] at hs
      subst hs
      exact h.local_nb hc _ _ rfl (by simp [NPc.admitted]) h.count_le (by simp [NPc.holds])
        (by simp [NPc.holds]) (by simp [NPc.holds]) (by simp) (by simp) (Or.inr rfl)
    · exact absurd hs (by simp)
  | over c =>
    simp only [nstep] at hs
    split at hs
    · rename_i hc
      simp only [Option.some.injEq] at hs
      subst hs
      exact h.local_nb hc _ _ rfl (by simp [NPc.admitted]) h.count_le (by simp [NPc.holds])
        (by simp [NPc.holds]) (by simp [NPc.holds]) (by simp) (by simp) (Or.inr rfl)
    · exact absurd hs (by simp)
  | inc c =>
    simp only [nstep] at hs
    split at hs
    · rename_i hc
      simp only [Option.some.injEq] at hs
      subst hs
      have hlt := h.inc_lt c hc
      have hinc := uintInc_of_lt hlt h.max_lt
      exact h.local_nb hc _ _ rfl (by simp [NPc.admitted, hinc])
        (by simp only [hinc]; omega)
        (fun _ => h.hold_locked c _ hc rfl)
        (by simp [NPc.holds]) (by simp [NPc.holds]) (by simp) (by simp)
        (Or.inl rfl)
    · exact absurd hs (by simp)
  | under c =>
    simp only [nstep] at hs
    split at hs
    · rename_i hc
      simp only [Option.some.injEq] at hs
      subst hs
      exact h.local_nb hc _ _ rfl (by simp [NPc.admitted]) h.count_le (by simp [NPc.holds])
        (by simp [NPc.holds]) (by simp [NPc.holds]) (by simp) (by simp) (Or.inr rfl)
    · exact absurd hs (by simp)
  | finish c o =>
    simp only [nstep] at hs
    split at hs
    · rename_i hc
      simp only [Option.some.injEq] at hs
      subst hs
      exact h.local_nb hc _ _ rfl (by simp [NPc.admitted]) h.count_le (by simp [NPc.holds])
        (by simp [NPc.holds]) (by simp [NPc.holds]) (by simp) (by simp) (Or.inr rfl)
    · rename_i hc
      simp only [Option.some.injEq] at hs
      subst hs
      exact h.local_nb hc _ _ rfl (by simp [NPc.admitted]) h.count_le (by simp [NPc.holds])
        (by simp [NPc.holds]) (by simp [NPc.holds]) (by simp) (by simp) (Or.inr rfl)
    · exact absurd hs (by simp)
  | dec c =>
    simp only [nstep] at hs
    split at hs
    · rename_i o hc
      simp only [Option.some.injEq] at hs
      subst hs
      have hpos := h.count_pos_nb hc rfl
      have hdec := uintDec_of_pos hpos h.count_lt_mod_nb
      have hle := h.count_le
      exact h.local_nb hc _ _ rfl (by simp only [hdec, NPc.admitted]; simp; omega)
        (by simp only [hdec]; omega)
        (fun _ => h.hold_locked c _ hc rfl)
        (by simp [NPc.holds]) (by simp [NPc.holds]) (by simp) (by simp)
        (Or.inl rfl)
    · exact absurd hs (by simp)

/-! ### Reachable states satisfy the invariants -/

theorem BInv.init {max : Nat} (hpos : 1 ≤ max) (hlt : max < uintMod) : BInv max (binit max) := by
  refine ⟨rfl, hpos, hlt, rfl, Nat.zero_le _, ?_, ?_, ?_, ?_, List.nodup_nil⟩
  · intro i p hi; simp [binit] at hi
  · intro i j p q hi; simp [binit] at hi
  · intro i hi; simp [binit] at hi
  · intro c; simp [binit]

theorem NInv.init_nb {max : Nat} (hpos : 1 ≤ max) (hlt : max < uintMod) : NInv max (ninit max) := by
  refine ⟨rfl, hpos, hlt, rfl, Nat.zero_le _, ?_, ?_, ?_, ?_⟩
  · intro i p hi; simp [ninit] at hi
  · intro i j p q hi; simp [ninit] at hi
  · intro i hi; simp [ninit] at hi
  · intro i hi; simp [ninit] at hi

theorem BInv.run {max : Nat} {sched : List BAct} :
    ∀ {s s' : BSys}, BInv max s → brun s sched = some s' → BInv max s' := by
  induction sched with
  | nil =>
    intro s s' h hr
    simp only [brun, Option.some.injEq] at hr
    subst hr
    exact h
  | cons a as ih =>
    intro s s' h hr
    simp only [brun] at hr
    cases hst : bstep s a with
    | none => rw [hst] at hr; exact absurd hr (by simp)
    | some s1 =>
      rw [hst] at hr
      exact ih (h.step hst) hr

theorem NInv.run_nb {max : Nat} {sched : List NAct} :
    ∀ {s s' : NSys}, NInv max s → nrun s sched = some s' → NInv max s' := by
  induction sched with
  | nil =>
    intro s s' h hr
    simp only [nrun, Option.some.injEq] at hr
    subst hr
    exact h
  | cons a as ih =>
    intro s s' h hr
    simp only [nrun] at hr
    cases hst : nstep s a with
    | none => rw [hst] at hr; exact absurd hr (by simp)
    | some s1 =>
      rw [hst] at hr
      exact ih (h.step_nb hst) hr

theorem NewBlocking_ok {max : Nat} {l : Blocking} (h : NewBlocking max = Except.ok l) :
    1 ≤ max ∧ BSys.mk l [] = binit max := by
  unfold NewBlocking at h
  split at h
  · exact absurd h (by simp)
  · rename_i h0
    simp only [Except.ok.injEq] at h
    subst h
    exact ⟨Nat.one_le_iff_ne_zero.mpr h0, rfl⟩

theorem NewNonBlocking_ok {max : Nat} {l : NonBlocking} (h : NewNonBlocking max = Except.ok l) :
    1 ≤ max ∧ NSys.mk l [] = ninit max := by
  unfold NewNonBlocking at h
  split at h
  · exact absurd h (by simp)
  · rename_i h0
    simp only [Except.ok.injEq] at h
    subst h
    exact ⟨Nat.one_le_iff_ne_zero.mpr h0, rfl⟩

theorem BReachable.inv {max : Nat} {s : BSys} (h : BReachable max s) : BInv max s := by
  obtain ⟨hlt, l, sched, hnew, hrun⟩ := h
  obtain ⟨hpos, hinit⟩ := NewBlocking_ok hnew
  rw [hinit] at hrun
  exact (BInv.init hpos hlt).run hrun

theorem NReachable.inv_nb {max : Nat} {s : NSys} (h : NReachable max s) : NInv max s := by
  obtain ⟨hlt, l, sched, hnew, hrun⟩ := h
  obtain ⟨hpos, hinit⟩ := NewNonBlocking_ok hnew
  rw [hinit] at hrun
  exact (NInv.init_nb hpos hlt).run_nb hrun

/-! ### Histories of calls: blocking limiter -/

theorem BPc.history_append_call (pcs : List BPc) (c : Nat) :
    BPc.history (pcs ++ [BPc.lock35])[c]? = BPc.history pcs[c]? := by
  by_cases hlt : c < pcs.length
  · rw [List.getElem?_append_left hlt]
  · have hle : pcs.length ≤ c := Nat.le_of_not_lt hlt
    rw [List.getElem?_append_right hle, List.getElem?_eq_none hle]
    by_cases h0 : c - pcs.length = 0
    · rw [h0]; rfl
    · rw [List.getElem?_eq_none (by simp; omega)]

/-- Moving call `d` from `p` to `p'` extends the history of `d` by what lies
between the two control points and leaves the other histories alone. -/
theorem BPc.history_set {pcs : List BPc} {d : Nat} {p : BPc} (hd : pcs[d]? = some p)
    (p' : BPc) (c : Nat) (e : Option BEv)
    (he : BPc.history (some p) ++ e.toList = BPc.history (some p')) :
    BPc.history pcs[c]? ++ (if d = c then e else none).toList
      = BPc.history (pcs.set d p')[c]? := by
  by_cases hdc : d = c
  · subst hdc
    rw [if_pos rfl, hd, getElem?_set_self_of_some hd, he]
  · rw [if_neg hdc, List.getElem?_set_ne hdc]
    simp

theorem bstep_history {max : Nat} {s s' : BSys} {a : BAct} (h : BInv max s)
    (hs : bstep s a = some s') (c : Nat) :
    BPc.history s.pcs[c]? ++ (bev c a).toList = BPc.history s'.pcs[c]? := by
  cases a with
  | call =>
    simp only [bstep, Option.some.injEq] at hs
    subst hs
    simp [bev, BPc.history_append_call]
  | lock d =>
    simp only [bstep] at hs
    split at hs
    · exact absurd hs (by simp)
    · split at hs
      · rename_i hc
        simp only [Option.some.injEq] at hs
        subst hs
        simpa [bev] using BPc.history_set hc BPc.loop36 c none rfl
      · rename_i hc
        simp only [Option.some.injEq] at hs
        subst hs
        simpa [bev] using BPc.history_set hc BPc.loop36 c none rfl
      · rename_i o hc
        simp only [Option.some.injEq] at hs
        subst hs
        simpa [bev] using BPc.history_set hc (BPc.dec50 o) c none rfl
      · exact absurd hs (by simp)
  | test d =>
    simp only [bstep] at hs
    split at hs
    · rename_i hc
      split at hs
      · simp only [Option.some.injEq] at hs
        subst hs
        simpa [bev] using BPc.history_set hc BPc.wait37 c none rfl
      · simp only [Option.some.injEq] at hs
        subst hs
        simpa [bev] using BPc.history_set hc BPc.inc39 c none rfl
    · exact absurd hs (by simp)
  | inc d =>
    simp only [bstep] at hs
    split at hs
    · rename_i hc
      simp only [Option.some.injEq] at hs
      subst hs
      exact BPc.history_set hc BPc.unlock40 c (some BEv.inc) rfl
    · exact absurd hs (by simp)
  | unlock d =>
    simp only [bstep] at hs
    split at hs
    · rename_i hc
      simp only [Option.some.injEq] at hs
      subst hs
      simpa [bev] using BPc.history_set hc BPc.defer46 c none rfl
    · rename_i o hc
      simp only [Option.some.injEq] at hs
      subst hs
      simpa [bev] using BPc.history_set hc (BPc.signal56 o) c none rfl
    · exact absurd hs (by simp)
  | invoke d =>
    simp only [bstep] at hs
    split at hs
    · rename_i hc
      simp only [Option.some.injEq] at hs
      subst hs
      exact BPc.history_set hc BPc.running c (some BEv.invoke) rfl
    · exact absurd hs (by simp)
  | finish d o =>
    simp only [bstep] at hs
    split at hs
    · rename_i hc
      simp only [Option.some.injEq] at hs
      subst hs
      exact BPc.history_set hc (BPc.dlock49 o) c (some (BEv.finish o)) rfl
    · exact absurd hs (by simp)
  | dec d =>
    simp only [bstep] at hs
    split at hs
    · rename_i o hc
      simp only [Option.some.injEq] at hs
      subst hs
      exact BPc.history_set hc (BPc.dunlock51 o) c (some BEv.dec) rfl
    · exact absurd hs (by simp)
  | signal d w =>
    simp only [bstep] at hs
    split at hs
    · rename_i o hc
      split at hs
      · split at hs
        · simp only [Option.some.injEq] at hs
          subst hs
          exact BPc.history_set hc (BPc.done o) c (some BEv.signal) rfl
        · exact absurd hs (by simp)
      · rename_i t
        split at hs
        · rename_i ht
          simp only [Option.some.injEq] at hs
          subst hs
          have htw : s.pcs[t]? = some BPc.wait37 := (h.notify_wait t).mp ht
          have htd : t ≠ d := by
            intro e
            rw [e, hc] at htw
            exact absurd htw (by simp)
          have hc' : (s.pcs.set t BPc.relock37)[d]? = some (BPc.signal56 o) := by
            rw [List.getElem?_set_ne htd]; exact hc
          have h1 := BPc.history_set htw BPc.relock37 c none rfl
          have h2 := BPc.history_set hc' (BPc.done o) c (some BEv.signal) rfl
          show BPc.history s.pcs[c]? ++ (bev c (BAct.signal d (some t))).toList
            = BPc.history ((s.pcs.set t BPc.relock37).set d (BPc.done o))[c]?
          rw [← h2, ← h1]
          simp [bev]
        · exact absurd hs (by simp)
    · exact absurd hs (by simp)

theorem brun_history {max : Nat} (c : Nat) {sched : List BAct} :
    ∀ {s s' : BSys}, BInv max s → brun s sched = some s' →
      BPc.history s.pcs[c]? ++ btrace c sched = BPc.history s'.pcs[c]? := by
  induction sched with
  | nil =>
    intro s s' _ hr
    simp only [brun, Option.some.injEq] at hr
    subst hr
    simp [btrace]
  | cons a as ih =>
    intro s s' h hr
    simp only [brun] at hr
    cases hst : bstep s a with
    | none => rw [hst] at hr; exact absurd hr (by simp)
    | some s1 =>
      rw [hst] at hr
      have h1 := bstep_history h hst c
      have h2 := ih (h.step hst) hr
      rw [← h2, ← h1]
      simp only [btrace, List.filterMap_cons, List.append_assoc]
      cases bev c a <;> simp

/-! ### Histories of calls: non-blocking limiter -/

theorem NPc.history_append_call_nb (pcs : List NPc) (c : Nat) :
    NPc.history (pcs ++ [NPc.lock38])[c]? = NPc.history pcs[c]? := by
  by_cases hlt : c < pcs.length
  · rw [List.getElem?_append_left hlt]
  · have hle : pcs.length ≤ c := Nat.le_of_not_lt hlt
    rw [List.getElem?_append_right hle, List.getElem?_eq_none hle]
    by_cases h0 : c - pcs.length = 0
    · rw [h0]; rfl
    · rw [List.getElem?_eq_none (by simp; omega)]

theorem NPc.history_set_nb {pcs : List NPc} {d : Nat} {p : NPc} (hd : pcs[d]? = some p)
    (p' : NPc) (c : Nat) (e : Option NEv)
    (he : NPc.history (some p) ++ e.toList = NPc.history (some p')) :
    NPc.history pcs[c]? ++ (if d = c then e else none).toList
      = NPc.history (pcs.set d p')[c]? := by
  by_cases hdc : d = c
  · subst hdc
    rw [if_pos rfl, hd, getElem?_set_self_of_some hd, he]
  · rw [if_neg hdc, List.getElem?_set_ne hdc]
    simp

theorem nstep_history {s s' : NSys} {a : NAct} (hs : nstep s a = some s') (c : Nat) :
    NPc.history s.pcs[c]? ++ (nev c s a).toList = NPc.history s'.pcs[c]? := by
  cases a with
  | call =>
    simp only [nstep, Option.some.injEq] at hs
    subst hs
    simp [nev, NPc.history_append_call_nb]
  | lock d =>
    simp only [nstep] at hs
    split at hs
    · exact absurd hs (by simp)
    · split at hs
      · rename_i hc
        simp only [Option.some.injEq] at hs
        subst hs
        simpa [nev] using NPc.history_set_nb hc NPc.test39 c none rfl
      · rename_i o hc
        simp only [Option.some.injEq] at hs
        subst hs
        simpa [nev] using NPc.history_set_nb hc (NPc.dec58 o) c none rfl
      · exact absurd hs (by simp)
  | test d =>
    simp only [nstep] at hs
    split at hs
    · rename_i hc
      split at hs
      · rename_i hge
        simp only [Option.some.injEq] at hs
        subst hs
        have hd : decide (s.l.count < s.l.max) = false := by simp; omega
        simp only [nev, hd]
        exact NPc.history_set_nb hc NPc.unlock42 c (some (NEv.test false)) rfl
      · rename_i hlt
        simp only [Option.some.injEq] at hs
        subst hs
        have hd : decide (s.l.count < s.l.max) = true := by simp; omega
        simp only [nev, hd]
        exact NPc.history_set_nb hc NPc.inc49 c (some (NEv.test true)) rfl
    · exact absurd hs (by simp)
  | unlock d =>
    simp only [nstep] at hs
    split at hs
    · rename_i hc
      simp only [Option.some.injEq] at hs
      subst hs
      simpa [nev] using NPc.history_set_nb hc NPc.over43 c none rfl
    · rename_i hc
      simp only [Option.some.injEq] at hs
      subst hs
      simpa [nev] using NPc.history_set_nb hc NPc.defer54 c none rfl
    · rename_i o hc
      simp only [Option.some.injEq] at hs
      subst hs
      simpa [nev] using NPc.history_set_nb hc (NPc.end64 o) c none rfl
    · exact absurd hs (by simp)
  | over d =>
    simp only [nstep] at hs
    split at hs
    · rename_i hc
      simp only [Option.some.injEq] at hs
      subst hs
      exact NPc.history_set_nb hc NPc.overRunning c (some NEv.over) rfl
    · exact absurd hs (by simp)
  | inc d =>
    simp only [nstep] at hs
    split at hs
    · rename_i hc
      simp only [Option.some.injEq] at hs
      subst hs
      exact NPc.history_set_nb hc NPc.unlock50 c (some NEv.inc) rfl
    · exact absurd hs (by simp)
  | under d =>
    simp only [nstep] at hs
    split at hs
    · rename_i hc
      simp only [Option.some.injEq] at hs
      subst hs
      exact NPc.history_set_nb hc NPc.underRunning c (some NEv.under) rfl
    · exact absurd hs (by simp)
  | finish d o =>
    simp only [nstep] at hs
    split at hs
    · rename_i hc
      simp only [Option.some.injEq] at hs
      subst hs
      exact NPc.history_set_nb hc (NPc.ret44 o) c (some (NEv.finish o)) rfl
    · rename_i hc
      simp only [Option.some.injEq] at hs
      subst hs
      exact NPc.history_set_nb hc (NPc.dlock57 o) c (some (NEv.finish o)) rfl
    · exact absurd hs (by simp)
  | dec d =>
    simp only [nstep] at hs
    split at hs
    · rename_i o hc
      simp only [Option.some.injEq] at hs
      subst hs
      exact NPc.history_set_nb hc (NPc.dunlock59 o) c (some NEv.dec) rfl
    · exact absurd hs (by simp)

theorem nrun_history (c : Nat) {sched : List NAct} :
    ∀ {s s' : NSys}, nrun s sched = some s' →
      NPc.history s.pcs[c]? ++ ntrace c s sched = NPc.history s'.pcs[c]? := by
  induction sched with
  | nil =>
    intro s s' hr
    simp only [nrun, Option.some.injEq] at hr
    subst hr
    simp [ntrace]
  | cons a as ih =>
    intro s s' hr
    simp only [nrun] at hr
    cases hst : nstep s a with
    | none => rw [hst] at hr; exact absurd hr (by simp)
    | some s1 =>
      rw [hst] at hr
      have h1 := nstep_history hst c
      have h2 := ih hr
      rw [← h2, ← h1]
      simp only [ntrace, hst, List.append_assoc]

theorem brun_append (s : BSys) (xs ys : List BAct) :
    brun s (xs ++ ys) = (brun s xs).bind fun s' => brun s' ys := by
  induction xs generalizing s with
  | nil => simp [brun]
  | cons a as ih =>
    simp only [List.cons_append, brun]
    cases bstep s a with
    | none => simp
    | some s1 => simp [ih]

theorem brun_cons (s : BSys) (a : BAct) (as : List BAct) :
    brun s (a :: as) = (bstep s a).bind fun s' => brun s' as := rfl

theorem uintDec_uintInc {n m : Nat} (h : n < m) (hm : m < uintMod) : uintDec (uintInc n) = n := by
  rw [uintInc_of_lt h hm, uintDec_of_pos (by omega) (by omega)]
  omega

/-- From a state whose mutex is free and whose count is under the limit, a call
that stands before `Lock` (at line 35, or awoken inside `Wait`) is admitted and
its callback is invoked, by its own steps alone. -/
theorem benter_run {s : BSys} {c : Nat} (hl : s.l.locked = false)
    (hc : s.pcs[c]? = some BPc.lock35 ∨ s.pcs[c]? = some BPc.relock37)
    (hlt : s.l.count < s.l.max) (hm : s.l.max < uintMod) :
    brun s (benter c)
      = some { l := { s.l with count := s.l.count + 1 }, pcs := s.pcs.set c BPc.running } := by
  obtain ⟨l, pcs⟩ := s
  obtain ⟨locked, notify, count, max⟩ := l
  simp only at hl hlt hm hc
  subst hl
  have hlen : c < pcs.length := by
    rcases hc with hc | hc <;> exact (List.getElem?_eq_some.mp hc).1
  have hinc : uintInc count = count + 1 := uintInc_of_lt hlt hm
  have hnge : ¬ (count ≥ max) := by omega
  rcases hc with hc | hc <;>
    simp [benter, brun, bstep, hc, hlen, hnge, hinc]

/-- From a state whose mutex is free and in which no call is suspended, a call
whose callback is running ends `Do` by its own steps alone, whatever the
outcome `o` of the callback. -/
theorem brelease_run_none {s : BSys} {c : Nat} (o : Outcome) (hl : s.l.locked = false)
    (hc : s.pcs[c]? = some BPc.running) (hpos : 1 ≤ s.l.count) (hm : s.l.count < uintMod)
    (hn : s.l.notify = []) :
    brun s (brelease c o none)
      = some { l := { s.l with count := s.l.count - 1 }, pcs := s.pcs.set c (BPc.done o) } := by
  obtain ⟨l, pcs⟩ := s
  obtain ⟨locked, notify, count, max⟩ := l
  simp only at hl hpos hm hc hn
  subst hl hn
  have hlen : c < pcs.length := (List.getElem?_eq_some.mp hc).1
  have hdec : uintDec count = count - 1 := uintDec_of_pos hpos hm
  simp [brelease, brun, bstep, hc, hlen, hdec]

/-- The same with a suspended call `t`, which the signal wakes. -/
theorem brelease_run_some {s : BSys} {c t : Nat} (o : Outcome) (hl : s.l.locked = false)
    (hc : s.pcs[c]? = some BPc.running) (hpos : 1 ≤ s.l.count) (hm : s.l.count < uintMod)
    (ht : t ∈ s.l.notify) (htc : t ≠ c) :
    brun s (brelease c o (some t))
      = some { l := { s.l with count := s.l.count - 1, notify := s.l.notify.erase t },
               pcs := (s.pcs.set t BPc.relock37).set c (BPc.done o) } := by
  obtain ⟨l, pcs⟩ := s
  obtain ⟨locked, notify, count, max⟩ := l
  simp only at hl hpos hm hc ht
  subst hl
  have hlen : c < pcs.length := (List.getElem?_eq_some.mp hc).1
  have hdec : uintDec count = count - 1 := uintDec_of_pos hpos hm
  have hcomm : ((pcs.set c (BPc.signal56 o)).set t BPc.relock37).set c (BPc.done o)
      = (pcs.set t BPc.relock37).set c (BPc.done o) := by
    rw [List.set_comm _ _ _ (fun e => htc e.symm), List.set_set]
  simp [brelease, brun, bstep, hc, hlen, hdec, ht, hcomm]

/-- A whole call that runs alone leaves the limiter as it found it. -/
theorem bsolo_run {s : BSys} {c : Nat} (o : Outcome) (hl : s.l.locked = false)
    (hc : s.pcs[c]? = some BPc.lock35) (hlt : s.l.count < s.l.max) (hm : s.l.max < uintMod)
    (hn : s.l.notify = []) :
    brun s (bsolo c o) = some { l := s.l, pcs := s.pcs.set c (BPc.done o) } := by
  have hlen : c < s.pcs.length := (List.getElem?_eq_some.mp hc).1
  have h2 := brelease_run_none
    (s := { l := { s.l with count := s.l.count + 1 }, pcs := s.pcs.set c BPc.running }) (c := c)
    o hl (by simp [hlen]) (by simp) (by show s.l.count + 1 < uintMod; omega) hn
  rw [bsolo, brun_append, benter_run hl (Or.inl hc) hlt hm, Option.some_bind, h2]
  simp [List.set_set]

theorem set_append_last {α : Type} (xs : List α) (a b : α) :
    (xs ++ [a]).set xs.length b = xs ++ [b] := by
  induction xs with
  | nil => rfl
  | cons x xs ih => simp [List.set, ih]

theorem bfill_run (n : Nat) :
    ∀ (s : BSys), s.l.locked = false → s.l.count + n ≤ s.l.max → s.l.max < uintMod →
      brun s (bfill s.pcs.length n)
        = some { l := { s.l with count := s.l.count + n },
                 pcs := s.pcs ++ List.replicate n BPc.running } := by
  induction n with
  | zero => intro s _ _ _; simp [bfill, brun]
  | succ n ih =>
    intro s hl hle hm
    have h1 : bstep s BAct.call = some { s with pcs := s.pcs ++ [BPc.lock35] } := rfl
    have h2 := benter_run (s := { s with pcs := s.pcs ++ [BPc.lock35] }) (c := s.pcs.length)
      hl (Or.inl (List.getElem?_concat_length _ _)) (by show s.l.count < s.l.max; omega) hm
    simp only [set_append_last] at h2
    have h3 := ih { l := { s.l with count := s.l.count + 1 }, pcs := s.pcs ++ [BPc.running] }
      hl (by show s.l.count + 1 + n ≤ s.l.max; omega) hm
    simp only [List.length_append, List.length_singleton] at h3
    rw [bfill, brun_cons, h1, Option.some_bind, brun_append, h2, Option.some_bind, h3]
    simp [List.replicate_succ, Nat.add_assoc, Nat.add_comm 1 n]

theorem bseq_run (os : List Outcome) :
    ∀ (s : BSys), s.l.locked = false → s.l.notify = [] → s.l.count < s.l.max →
      s.l.max < uintMod →
      brun s (bseq s.pcs.length os)
        = some { l := s.l, pcs := s.pcs ++ os.map BPc.done } := by
  induction os with
  | nil => intro s _ _ _ _; simp [bseq, brun]
  | cons o os ih =>
    intro s hl hn hlt hm
    have h1 : bstep s BAct.call = some { s with pcs := s.pcs ++ [BPc.lock35] } := rfl
    have h2 := bsolo_run (s := { s with pcs := s.pcs ++ [BPc.lock35] }) (c := s.pcs.length) o
      hl (List.getElem?_concat_length _ _) hlt hm hn
    simp only [set_append_last] at h2
    have h3 := ih { l := s.l, pcs := s.pcs ++ [BPc.done o] } hl hn hlt hm
    simp only [List.length_append, List.length_singleton] at h3
    rw [bseq, brun_cons, h1, Option.some_bind, brun_append, h2, Option.some_bind, h3]
    simp

theorem nrun_cons (s : NSys) (a : NAct) (as : List NAct) :
    nrun s (a :: as) = (nstep s a).bind fun s' => nrun s' as := rfl

theorem nrun_append (s : NSys) (xs ys : List NAct) :
    nrun s (xs ++ ys) = (nrun s xs).bind fun s' => nrun s' ys := by
  induction xs generalizing s with
  | nil => simp [nrun]
  | cons a as ih =>
    simp only [List.cons_append, nrun]
    cases nstep s a with
    | none => simp
    | some s1 => simp [ih]

/-- From a state whose mutex is free and whose count is under the limit, a call
at line 38 is admitted and `underLimit` is invoked, by its own steps alone. -/
theorem nenter_run {s : NSys} {c : Nat} (hl : s.l.locked = false)
    (hc : s.pcs[c]? = some NPc.lock38)
    (hlt : s.l.count < s.l.max) (hm : s.l.max < uintMod) :
    nrun s (nenter c)
      = some { l := { s.l with count := s.l.count + 1 },
               pcs := s.pcs.set c NPc.underRunning } := by
  obtain ⟨l, pcs⟩ := s
  obtain ⟨locked, count, max⟩ := l
  simp only at hl hlt hm hc
  subst hl
  have hlen : c < pcs.length := (List.getElem?_eq_some.mp hc).1
  have hinc : uintInc count = count + 1 := uintInc_of_lt hlt hm
  have hnge : ¬ (count ≥ max) := by omega
  simp [nenter, nrun, nstep, hc, hlen, hnge, hinc]

/-- From a state whose mutex is free, a call whose `underLimit` is running ends
`Do` by its own steps alone, whatever the outcome `o` of the callback. -/
theorem nrelease_run {s : NSys} {c : Nat} (o : Outcome) (hl : s.l.locked = false)
    (hc : s.pcs[c]? = some NPc.underRunning) (hpos : 1 ≤ s.l.count)
    (hm : s.l.count < uintMod) :
    nrun s (nrelease c o)
      = some { l := { s.l with count := s.l.count - 1 }, pcs := s.pcs.set c (NPc.end64 o) } := by
  obtain ⟨l, pcs⟩ := s
  obtain ⟨locked, count, max⟩ := l
  simp only at hl hpos hm hc
  subst hl
  have hlen : c < pcs.length := (List.getElem?_eq_some.mp hc).1
  have hdec : uintDec count = count - 1 := uintDec_of_pos hpos hm
  simp [nrelease, nrun, nstep, hc, hlen, hdec]

/-- From a state whose mutex is free and whose count is at the limit, a call at
line 38 invokes `overLimit` by its own steps alone; the limiter is unchanged. -/
theorem nrefuse_run {s : NSys} {c : Nat} (hl : s.l.locked = false)
    (hc : s.pcs[c]? = some NPc.lock38) (hge : s.l.count ≥ s.l.max) :
    nrun s (nrefuse c) = some { l := s.l, pcs := s.pcs.set c NPc.overRunning } := by
  obtain ⟨l, pcs⟩ := s
  obtain ⟨locked, count, max⟩ := l
  simp only at hl hge hc
  subst hl
  have hlen : c < pcs.length := (List.getElem?_eq_some.mp hc).1
  simp [nrefuse, nrun, nstep, hc, hlen, hge]

theorem nsoloOver_run {s : NSys} {c : Nat} (o : Outcome) (hl : s.l.locked = false)
    (hc : s.pcs[c]? = some NPc.lock38) (hge : s.l.count ≥ s.l.max) :
    nrun s (nsoloOver c o) = some { l := s.l, pcs := s.pcs.set c (NPc.ret44 o) } := by
  have hlen : c < s.pcs.length := (List.getElem?_eq_some.mp hc).1
  rw [nsoloOver, nrun_append, nrefuse_run hl hc hge, Option.some_bind]
  simp [nrun, nstep, hlen]

/-- A whole call on the under-limit path that runs alone leaves the limiter as
it found it. -/
theorem nsoloUnder_run {s : NSys} {c : Nat} (o : Outcome) (hl : s.l.locked = false)
    (hc : s.pcs[c]? = some NPc.lock38) (hlt : s.l.count < s.l.max) (hm : s.l.max < uintMod) :
    nrun s (nsoloUnder c o) = some { l := s.l, pcs := s.pcs.set c (NPc.end64 o) } := by
  have hlen : c < s.pcs.length := (List.getElem?_eq_some.mp hc).1
  have h2 := nrelease_run
    (s := { l := { s.l with count := s.l.count + 1 }, pcs := s.pcs.set c NPc.underRunning })
    (c := c) o hl (by simp [hlen]) (by simp) (by show s.l.count + 1 < uintMod; omega)
  rw [nsoloUnder, nrun_append, nenter_run hl hc hlt hm, Option.some_bind, h2]
  simp [List.set_set]

theorem nfill_run (n : Nat) :
    ∀ (s : NSys), s.l.locked = false → s.l.count + n ≤ s.l.max → s.l.max < uintMod →
      nrun s (nfill s.pcs.length n)
        = some { l := { s.l with count := s.l.count + n },
                 pcs := s.pcs ++ List.replicate n NPc.underRunning } := by
  induction n with
  | zero => intro s _ _ _; simp [nfill, nrun]
  | succ n ih =>
    intro s hl hle hm
    have h1 : nstep s NAct.call = some { s with pcs := s.pcs ++ [NPc.lock38] } := rfl
    have h2 := nenter_run (s := { s with pcs := s.pcs ++ [NPc.lock38] }) (c := s.pcs.length)
      hl (List.getElem?_concat_length _ _) (by show s.l.count < s.l.max; omega) hm
    simp only [set_append_last] at h2
    have h3 := ih
      { l := { s.l with count := s.l.count + 1 }, pcs := s.pcs ++ [NPc.underRunning] }
      hl (by show s.l.count + 1 + n ≤ s.l.max; omega) hm
    simp only [List.length_append, List.length_singleton] at h3
    rw [nfill, nrun_cons, h1, Option.some_bind, nrun_append, h2, Option.some_bind, h3]
    simp [List.replicate_succ, Nat.add_assoc, Nat.add_comm 1 n]

theorem nseq_run (os : List Outcome) :
    ∀ (s : NSys), s.l.locked = false → s.l.count < s.l.max → s.l.max < uintMod →
      nrun s (nseq s.pcs.length os)
        = some { l := s.l, pcs := s.pcs ++ os.map NPc.end64 } := by
  induction os with
  | nil => intro s _ _ _; simp [nseq, nrun]
  | cons o os ih =>
    intro s hl hlt hm
    have h1 : nstep s NAct.call = some { s with pcs := s.pcs ++ [NPc.lock38] } := rfl
    have h2 := nsoloUnder_run (s := { s with pcs := s.pcs ++ [NPc.lock38] })
      (c := s.pcs.length) o hl (List.getElem?_concat_length _ _) hlt hm
    simp only [set_append_last] at h2
    have h3 := ih { l := s.l, pcs := s.pcs ++ [NPc.end64 o] } hl hlt hm
    simp only [List.length_append, List.length_singleton] at h3
    rw [nseq, nrun_cons, h1, Option.some_bind, nrun_append, h2, Option.some_bind, h3]
    simp

/-! ### The claims -/

/-- C3: `NewBlocking max` and `NewNonBlocking max` return an error, and no
limiter, exactly when `max = 0`; when `1 ≤ max` they return no error and a
limiter whose count is `0` and whose max is the argument (mutex free, nobody
suspended). -/
theorem new_limiter_error_iff_zero (max : Nat) :
    ((∃ e, NewBlocking max = Except.error e) ↔ max = 0) ∧
    ((∃ e, NewNonBlocking max = Except.error e) ↔ max = 0) ∧
    (1 ≤ max →
      NewBlocking max = Except.ok { locked := false, notify := [], count := 0, max := max } ∧
      NewNonBlocking max = Except.ok { locked := false, count := 0, max := max }) := by
  refine ⟨?_, ?_, ?_⟩
  · unfold NewBlocking
    by_cases h : max = 0 <;> simp [h]
  · unfold NewNonBlocking
    by_cases h : max = 0 <;> simp [h]
  · intro h
    have h0 : max ≠ 0 := by omega
    simp [NewBlocking, NewNonBlocking, h0]

/-- Witness of C3 at `max = 3`. -/
theorem new_limiter_error_iff_zero_witness :
    NewBlocking 3 = Except.ok { locked := false, notify := [], count := 0, max := 3 } ∧
    NewNonBlocking 3 = Except.ok { locked := false, count := 0, max := 3 } :=
  (new_limiter_error_iff_zero 3).2.2 (by decide)

/-- C2: in every state reachable from a limiter built with `max`, the field
`max` still has that value and is at least `1`, and `count ≤ max`; every
enabled `count--` runs with `count ≥ 1` and lowers it by exactly one, and every
enabled `count++` raises it by exactly one, so the `uint` never wraps. -/
theorem count_within_bounds (max : Nat) :
    (∀ s : BSys, BReachable max s →
      s.l.max = max ∧ 1 ≤ s.l.max ∧ s.l.count ≤ s.l.max ∧
      (∀ c s', bstep s (BAct.dec c) = some s' → 1 ≤ s.l.count ∧ s'.l.count + 1 = s.l.count) ∧
      (∀ c s', bstep s (BAct.inc c) = some s' → s'.l.count = s.l.count + 1)) ∧
    (∀ s : NSys, NReachable max s →
      s.l.max = max ∧ 1 ≤ s.l.max ∧ s.l.count ≤ s.l.max ∧
      (∀ c s', nstep s (NAct.dec c) = some s' → 1 ≤ s.l.count ∧ s'.l.count + 1 = s.l.count) ∧
      (∀ c s', nstep s (NAct.inc c) = some s' → s'.l.count = s.l.count + 1)) := by
  constructor
  · intro s hr
    have h := hr.inv
    refine ⟨h.max_eq, by rw [h.max_eq]; exact h.max_pos, by rw [h.max_eq]; exact h.count_le,
      ?_, ?_⟩
    · intro c s' hs
      simp only [bstep] at hs
      split at hs
      · rename_i o hc
        simp only [Option.some.injEq] at hs
        subst hs
        have hpos := h.count_pos hc rfl
        have hdec := uintDec_of_pos hpos h.count_lt_mod
        refine ⟨hpos, ?_⟩
        show uintDec s.l.count + 1 = s.l.count
        omega
      · exact absurd hs (by simp)
    · intro c s' hs
      simp only [bstep] at hs
      split at hs
      · rename_i hc
        simp only [Option.some.injEq] at hs
        subst hs
        exact uintInc_of_lt (h.inc_lt c hc) h.max_lt
      · exact absurd hs (by simp)
  · intro s hr
    have h := hr.inv_nb
    refine ⟨h.max_eq, by rw [h.max_eq]; exact h.max_pos, by rw [h.max_eq]; exact h.count_le,
      ?_, ?_⟩
    · intro c s' hs
      simp only [nstep] at hs
      split at hs
      · rename_i o hc
        simp only [Option.some.injEq] at hs
        subst hs
        have hpos := h.count_pos_nb hc rfl
        have hdec := uintDec_of_pos hpos h.count_lt_mod_nb
        refine ⟨hpos, ?_⟩
        show uintDec s.l.count + 1 = s.l.count
        omega
      · exact absurd hs (by simp)
    · intro c s' hs
      simp only [nstep] at hs
      split at hs
      · rename_i hc
        simp only [Option.some.injEq] at hs
        subst hs
        exact uintInc_of_lt (h.inc_lt c hc) h.max_lt
      · exact absurd hs (by simp)

/-- Witness of C2: with `max = 2`, the state in which one call is about to run
`count--` is reachable, for either limiter, and the bounds hold there. -/
theorem count_within_bounds_witness :
    ((BSys.mk ⟨true, [], 1, 2⟩ [BPc.dec50 Outcome.returned]).l.count ≤ 2 ∧
      ∀ c s', bstep (BSys.mk ⟨true, [], 1, 2⟩ [BPc.dec50 Outcome.returned]) (BAct.dec c) = some s' →
        1 ≤ (1 : Nat) ∧ s'.l.count + 1 = 1) ∧
    ((NSys.mk ⟨true, 1, 2⟩ [NPc.dec58 Outcome.returned]).l.count ≤ 2 ∧
      ∀ c s', nstep (NSys.mk ⟨true, 1, 2⟩ [NPc.dec58 Outcome.returned]) (NAct.dec c) = some s' →
        1 ≤ (1 : Nat) ∧ s'.l.count + 1 = 1) := by
  have hb := (count_within_bounds 2).1 (BSys.mk ⟨true, [], 1, 2⟩ [BPc.dec50 Outcome.returned])
    ⟨by decide, ⟨false, [], 0, 2⟩,
      BAct.call :: (benter 0 ++ [BAct.finish 0 Outcome.returned, BAct.lock 0]), rfl, rfl⟩
  have hn := (count_within_bounds 2).2 (NSys.mk ⟨true, 1, 2⟩ [NPc.dec58 Outcome.returned])
    ⟨by decide, ⟨false, 0, 2⟩,
      NAct.call :: (nenter 0 ++ [NAct.finish 0 Outcome.returned, NAct.lock 0]), rfl, rfl⟩
  exact ⟨⟨hb.2.2.1, hb.2.2.2.1⟩, ⟨hn.2.2.1, hn.2.2.2.1⟩⟩

theorem BPc.working_admitted (p : BPc) (h : p.working = true) : p.admitted = true := by
  cases p <;> simp_all [BPc.working, BPc.admitted]

theorem NPc.working_admitted_nb (p : NPc) (h : p.working = true) : p.admitted = true := by
  cases p <;> simp_all [NPc.working, NPc.admitted]

/-- C1, as stated, fails: with `max = 1`, after a call has run `count++` and
`Unlock` and before it invokes its callback, `count` is `1` and no caller is
executing admitted work; the same holds for the non-blocking limiter. -/
theorem working_calls_ne_count :
    (BReachable 1 (BSys.mk ⟨false, [], 1, 1⟩ [BPc.defer46]) ∧
      (BSys.mk ⟨false, [], 1, 1⟩ [BPc.defer46]).pcs.countP BPc.working = 0 ∧
      (BSys.mk ⟨false, [], 1, 1⟩ [BPc.defer46]).l.count = 1) ∧
    (NReachable 1 (NSys.mk ⟨false, 1, 1⟩ [NPc.defer54]) ∧
      (NSys.mk ⟨false, 1, 1⟩ [NPc.defer54]).pcs.countP NPc.working = 0 ∧
      (NSys.mk ⟨false, 1, 1⟩ [NPc.defer54]).l.count = 1) :=
  ⟨⟨⟨by decide, ⟨false, [], 0, 1⟩,
      [BAct.call, BAct.lock 0, BAct.test 0, BAct.inc 0, BAct.unlock 0], rfl, rfl⟩, rfl, rfl⟩,
   ⟨⟨by decide, ⟨false, 0, 1⟩,
      [NAct.call, NAct.lock 0, NAct.test 0, NAct.inc 0, NAct.unlock 0], rfl, rfl⟩, rfl, rfl⟩⟩

/-- C1, amended: in every state reachable from a limiter built with `max`, by
any interleaving of the steps of `Do` calls, `count` equals the number of
admitted calls (`count++` run, `count--` not yet run); the number of callers
executing admitted work (callback invoked, release not yet run) is at most
`count`, which is at most `max`; and `count++` only ever runs with
`count < max`, so two callers cannot both take the last slot. -/
theorem admitted_calls_eq_count (max : Nat) :
    (∀ s : BSys, BReachable max s →
      s.pcs.countP BPc.admitted = s.l.count ∧
      s.pcs.countP BPc.working ≤ s.l.count ∧ s.l.count ≤ s.l.max ∧ s.l.max = max ∧
      ∀ c s', bstep s (BAct.inc c) = some s' → s.l.count < s.l.max) ∧
    (∀ s : NSys, NReachable max s →
      s.pcs.countP NPc.admitted = s.l.count ∧
      s.pcs.countP NPc.working ≤ s.l.count ∧ s.l.count ≤ s.l.max ∧ s.l.max = max ∧
      ∀ c s', nstep s (NAct.inc c) = some s' → s.l.count < s.l.max) := by
  constructor
  · intro s hr
    have h := hr.inv
    refine ⟨h.count_eq.symm, ?_, by rw [h.max_eq]; exact h.count_le, h.max_eq, ?_⟩
    · rw [h.count_eq]
      exact List.countP_mono_left fun p _ hp => BPc.working_admitted p hp
    · intro c s' hs
      simp only [bstep] at hs
      split at hs
      · rename_i hc
        rw [h.max_eq]
        exact h.inc_lt c hc
      · exact absurd hs (by simp)
  · intro s hr
    have h := hr.inv_nb
    refine ⟨h.count_eq.symm, ?_, by rw [h.max_eq]; exact h.count_le, h.max_eq, ?_⟩
    · rw [h.count_eq]
      exact List.countP_mono_left fun p _ hp => NPc.working_admitted_nb p hp
    · intro c s' hs
      simp only [nstep] at hs
      split at hs
      · rename_i hc
        rw [h.max_eq]
        exact h.inc_lt c hc
      · exact absurd hs (by simp)

/-- Witness of the amended C1: with `max = 2`, two calls admitted, one of them
executing its callback. -/
theorem admitted_calls_eq_count_witness :
    ((BSys.mk ⟨false, [], 2, 2⟩ [BPc.running, BPc.defer46]).pcs.countP BPc.admitted = 2 ∧
      (BSys.mk ⟨false, [], 2, 2⟩ [BPc.running, BPc.defer46]).pcs.countP BPc.working ≤ 2) ∧
    ((NSys.mk ⟨false, 2, 2⟩ [NPc.underRunning, NPc.defer54]).pcs.countP NPc.admitted = 2 ∧
      (NSys.mk ⟨false, 2, 2⟩ [NPc.underRunning, NPc.defer54]).pcs.countP NPc.working ≤ 2) := by
  have hb := (admitted_calls_eq_count 2).1
    (BSys.mk ⟨false, [], 2, 2⟩ [BPc.running, BPc.defer46])
    ⟨by decide, ⟨false, [], 0, 2⟩,
      BAct.call :: (benter 0 ++
        [BAct.call, BAct.lock 1, BAct.test 1, BAct.inc 1, BAct.unlock 1]), rfl, rfl⟩
  have hn := (admitted_calls_eq_count 2).2
    (NSys.mk ⟨false, 2, 2⟩ [NPc.underRunning, NPc.defer54])
    ⟨by decide, ⟨false, 0, 2⟩,
      NAct.call :: (nenter 0 ++
        [NAct.call, NAct.lock 1, NAct.test 1, NAct.inc 1, NAct.unlock 1]), rfl, rfl⟩
  exact ⟨⟨hb.1, hb.2.1⟩, ⟨hn.1, hn.2.1⟩⟩

theorem NPc.history_callbacks (p : Option NPc) :
    (NPc.history p).count NEv.under + (NPc.history p).count NEv.over ≤ 1 ∧
    (NEv.under ∈ NPc.history p → (NPc.history p).head? = some (NEv.test true)) ∧
    (NEv.over ∈ NPc.history p → (NPc.history p).head? = some (NEv.test false)) := by
  cases p with
  | none => simp [NPc.history]
  | some p => cases p <;> simp [NPc.history]

/-- C4: take any state in which call `c` of `NonBlocking.Do` stands at line 38
and any interleaving run from it.  The history of `c` along it is the one of
its control point, so `c` invokes at most one callback, at most once; when `Do`
has ended (line 44 or line 64) it has invoked exactly one, exactly once;
`underLimit` is invoked only after the check found `count < max` and
`overLimit` only after it found `count >= max`.  And neither is never the case
for want of a step: with the mutex free, the call runs to its end on its own,
invoking `underLimit` when `count < max` and `overLimit` when `count >= max`. -/
theorem nonblocking_invokes_exactly_one (s : NSys) (c : Nat)
    (hc : s.pcs[c]? = some NPc.lock38) :
    (∀ sched s', nrun s sched = some s' →
      ntrace c s sched = NPc.history s'.pcs[c]? ∧
      (ntrace c s sched).count NEv.under + (ntrace c s sched).count NEv.over ≤ 1 ∧
      (∀ o, s'.pcs[c]? = some (NPc.ret44 o) ∨ s'.pcs[c]? = some (NPc.end64 o) →
        (ntrace c s sched).count NEv.under + (ntrace c s sched).count NEv.over = 1) ∧
      (NEv.under ∈ ntrace c s sched → (ntrace c s sched).head? = some (NEv.test true)) ∧
      (NEv.over ∈ ntrace c s sched → (ntrace c s sched).head? = some (NEv.test false))) ∧
    (∀ s', nstep s (NAct.lock c) = some s' → ∀ s'', nstep s' (NAct.test c) = some s'' →
      s''.pcs[c]? = some (if s'.l.count < s'.l.max then NPc.inc49 else NPc.unlock42)) ∧
    (s.l.locked = false → s.l.count < s.l.max → s.l.max < uintMod → ∀ o,
      nrun s (nsoloUnder c o) = some { l := s.l, pcs := s.pcs.set c (NPc.end64 o) } ∧
      ntrace c s (nsoloUnder c o)
        = [NEv.test true, NEv.inc, NEv.under, NEv.finish o, NEv.dec]) ∧
    (s.l.locked = false → s.l.count ≥ s.l.max → ∀ o,
      nrun s (nsoloOver c o) = some { l := s.l, pcs := s.pcs.set c (NPc.ret44 o) } ∧
      ntrace c s (nsoloOver c o) = [NEv.test false, NEv.over, NEv.finish o]) := by
  have hlen : c < s.pcs.length := (List.getElem?_eq_some.mp hc).1
  have htr : ∀ sched s', nrun s sched = some s' →
      ntrace c s sched = NPc.history s'.pcs[c]? := by
    intro sched s' hr
    have h := nrun_history c hr
    rw [hc] at h
    simpa [NPc.history] using h
  refine ⟨?_, ?_, ?_, ?_⟩
  · intro sched s' hr
    have e := htr sched s' hr
    have hcb := NPc.history_callbacks s'.pcs[c]?
    rw [e]
    refine ⟨rfl, hcb.1, ?_, hcb.2.1, hcb.2.2⟩
    intro o ho
    rcases ho with ho | ho <;> rw [ho] <;> simp [NPc.history]
  · intro s' h1 s'' h2
    simp only [nstep] at h1
    split at h1
    · exact absurd h1 (by simp)
    · rw [hc] at h1
      simp only [Option.some.injEq] at h1
      subst h1
      simp only [nstep, List.getElem?_set_self hlen] at h2
      split at h2
      · rename_i hge
        simp only [Option.some.injEq] at h2
        subst h2
        have hnlt : ¬ (s.l.count < s.l.max) := by simp at hge; omega
        simp [hlen, hnlt]
      · rename_i hlt
        simp only [Option.some.injEq] at h2
        subst h2
        have hlt' : s.l.count < s.l.max := by simp at hlt; omega
        simp [hlen, hlt']
  · intro hl hlt hm o
    have hr := nsoloUnder_run o hl hc hlt hm
    refine ⟨hr, ?_⟩
    rw [htr _ _ hr]
    simp [hlen, NPc.history]
  · intro hl hge o
    have hr := nsoloOver_run o hl hc hge
    refine ⟨hr, ?_⟩
    rw [htr _ _ hr]
    simp [hlen, NPc.history]

/-- Witness of C4: a call made on a full limiter (`max = 1`, one call running
`underLimit`) while a second call stands at line 38. -/
theorem nonblocking_invokes_exactly_one_witness :
    nrun (NSys.mk ⟨false, 1, 1⟩ [NPc.underRunning, NPc.lock38]) (nsoloOver 1 (Outcome.panicked 7))
      = some (NSys.mk ⟨false, 1, 1⟩ [NPc.underRunning, NPc.ret44 (Outcome.panicked 7)]) ∧
    ntrace 1 (NSys.mk ⟨false, 1, 1⟩ [NPc.underRunning, NPc.lock38])
        (nsoloOver 1 (Outcome.panicked 7))
      = [NEv.test false, NEv.over, NEv.finish (Outcome.panicked 7)] :=
  (nonblocking_invokes_exactly_one (NSys.mk ⟨false, 1, 1⟩ [NPc.underRunning, NPc.lock38]) 1
    rfl).2.2.2 rfl (by decide) (Outcome.panicked 7)

theorem btrace_of_init {max : Nat} (hpos : 1 ≤ max) (hlt : max < uintMod) {sched : List BAct}
    {s : BSys} (hr : brun (binit max) sched = some s) (c : Nat) :
    btrace c sched = BPc.history s.pcs[c]? := by
  have h := brun_history c (BInv.init hpos hlt) hr
  simpa [binit, BPc.history] using h

theorem ntrace_of_init {max : Nat} {sched : List NAct}
    {s : NSys} (hr : nrun (ninit max) sched = some s) (c : Nat) :
    ntrace c (ninit max) sched = NPc.history s.pcs[c]? := by
  have h := nrun_history c hr
  simpa [ninit, NPc.history] using h

theorem BPc.history_counts (p : Option BPc) :
    (BPc.history p).count BEv.dec ≤ (BPc.history p).count BEv.inc ∧
    (BPc.history p).count BEv.inc ≤ 1 ∧
    (BPc.history p).count BEv.signal ≤ (BPc.history p).count BEv.dec := by
  cases p with
  | none => simp [BPc.history]
  | some p => cases p <;> simp [BPc.history]

theorem NPc.history_counts_nb (p : Option NPc) :
    (NPc.history p).count NEv.dec ≤ (NPc.history p).count NEv.inc ∧
    (NPc.history p).count NEv.inc ≤ 1 := by
  cases p with
  | none => simp [NPc.history]
  | some p => cases p <;> simp [NPc.history]

/-- C5: on a limiter built with `max`, along any interleaving a call runs
`count--` at most as often as `count++`, which it runs at most once; a call of
`Blocking.Do` that has ended has the history admission, invocation, end of the
callback with its outcome `o` (a return or a panic), release, signal, and a
call of `NonBlocking.Do` that has ended at line 64 the same without the signal:
one increment, matched by one decrement after the callback ended.  A call that
runs alone leaves `count` as it found it, whatever the outcome.  After any
sequence of calls with any outcomes `os` (for one, `max` calls that all panic)
a following call is admitted and its callback invoked. -/
theorem release_exactly_once (max : Nat) (hpos : 1 ≤ max) (hlt : max < uintMod) :
    (∀ sched s c, brun (binit max) sched = some s →
      btrace c sched = BPc.history s.pcs[c]? ∧
      (btrace c sched).count BEv.dec ≤ (btrace c sched).count BEv.inc ∧
      (btrace c sched).count BEv.inc ≤ 1 ∧
      ∀ o, s.pcs[c]? = some (BPc.done o) →
        btrace c sched = [BEv.inc, BEv.invoke, BEv.finish o, BEv.dec, BEv.signal]) ∧
    (∀ (s : BSys) c o, s.l.locked = false → s.l.notify = [] → s.pcs[c]? = some BPc.lock35 →
      s.l.count < s.l.max → s.l.max < uintMod →
      brun s (bsolo c o) = some { l := s.l, pcs := s.pcs.set c (BPc.done o) }) ∧
    (∀ os : List Outcome,
      brun (binit max) (bseq 0 os ++ BAct.call :: benter os.length)
        = some { l := { locked := false, notify := [], count := 1, max := max },
                 pcs := os.map BPc.done ++ [BPc.running] }) ∧
    (∀ sched s c, nrun (ninit max) sched = some s →
      ntrace c (ninit max) sched = NPc.history s.pcs[c]? ∧
      (ntrace c (ninit max) sched).count NEv.dec ≤ (ntrace c (ninit max) sched).count NEv.inc ∧
      (ntrace c (ninit max) sched).count NEv.inc ≤ 1 ∧
      ∀ o, s.pcs[c]? = some (NPc.end64 o) →
        ntrace c (ninit max) sched
          = [NEv.test true, NEv.inc, NEv.under, NEv.finish o, NEv.dec]) ∧
    (∀ (s : NSys) c o, s.l.locked = false → s.pcs[c]? = some NPc.lock38 →
      s.l.count < s.l.max → s.l.max < uintMod →
      nrun s (nsoloUnder c o) = some { l := s.l, pcs := s.pcs.set c (NPc.end64 o) }) ∧
    (∀ os : List Outcome,
      nrun (ninit max) (nseq 0 os ++ NAct.call :: nenter os.length)
        = some { l := { locked := false, count := 1, max := max },
                 pcs := os.map NPc.end64 ++ [NPc.underRunning] }) := by
  refine ⟨?_, ?_, ?_, ?_, ?_, ?_⟩
  · intro sched s c hr
    have e := btrace_of_init hpos hlt hr c
    have hcnt := BPc.history_counts s.pcs[c]?
    rw [e]
    refine ⟨rfl, hcnt.1, hcnt.2.1, ?_⟩
    intro o ho
    rw [ho]; rfl
  · intro s c o hl hn hc hlt' hm
    exact bsolo_run o hl hc hlt' hm hn
  · intro os
    have h1 := bseq_run os (binit max) rfl rfl (by show 0 < max; omega) hlt
    simp only [binit, List.length_nil, List.nil_append] at h1
    have h2 := benter_run
      (s := { l := { locked := false, notify := [], count := 0, max := max },
              pcs := os.map BPc.done ++ [BPc.lock35] })
      (c := os.length) rfl
      (Or.inl (by simp))
      (by show 0 < max; omega) hlt
    have h3 : (os.map BPc.done ++ [BPc.lock35]).set os.length BPc.running
        = os.map BPc.done ++ [BPc.running] := by
      simp
    rw [brun_append, binit, h1, Option.some_bind, brun_cons]
    simp only [bstep, Option.some_bind]
    rw [h2, h3]
  · intro sched s c hr
    have e := ntrace_of_init hr c
    have hcnt := NPc.history_counts_nb s.pcs[c]?
    rw [e]
    refine ⟨rfl, hcnt.1, hcnt.2, ?_⟩
    intro o ho
    rw [ho]; rfl
  · intro s c o hl hc hlt' hm
    exact nsoloUnder_run o hl hc hlt' hm
  · intro os
    have h1 := nseq_run os (ninit max) rfl (by show 0 < max; omega) hlt
    simp only [ninit, List.length_nil, List.nil_append] at h1
    have h2 := nenter_run
      (s := { l := { locked := false, count := 0, max := max },
              pcs := os.map NPc.end64 ++ [NPc.lock38] })
      (c := os.length) rfl
      (by simp)
      (by show 0 < max; omega) hlt
    have h3 : (os.map NPc.end64 ++ [NPc.lock38]).set os.length NPc.underRunning
        = os.map NPc.end64 ++ [NPc.underRunning] := by
      simp
    rw [nrun_append, ninit, h1, Option.some_bind, nrun_cons]
    simp only [nstep, Option.some_bind]
    rw [h2, h3]

/-- Witness of C5: `max = 2`, two calls whose callbacks panic, then a third
call, which is admitted, on either limiter. -/
theorem release_exactly_once_witness :
    brun (binit 2)
        (bseq 0 [Outcome.panicked 1, Outcome.panicked 2] ++ BAct.call :: benter 2)
      = some { l := { locked := false, notify := [], count := 1, max := 2 },
               pcs := [BPc.done (Outcome.panicked 1), BPc.done (Outcome.panicked 2),
                       BPc.running] } ∧
    nrun (ninit 2)
        (nseq 0 [Outcome.panicked 1, Outcome.panicked 2] ++ NAct.call :: nenter 2)
      = some { l := { locked := false, count := 1, max := 2 },
               pcs := [NPc.end64 (Outcome.panicked 1), NPc.end64 (Outcome.panicked 2),
                       NPc.underRunning] } := by
  have h := release_exactly_once 2 (by decide) (by decide)
  exact ⟨h.2.2.1 [Outcome.panicked 1, Outcome.panicked 2],
    h.2.2.2.2.2 [Outcome.panicked 1, Outcome.panicked 2]⟩

theorem BPc.history_finish (p : Option BPc) (o o' : Outcome)
    (h : BEv.finish o ∈ BPc.history p) (hp : p = some (BPc.done o')) : o' = o := by
  subst hp
  simp [BPc.history] at h
  exact h.symm

theorem NPc.history_finish_nb (p : Option NPc) (o o' : Outcome)
    (h : NEv.finish o ∈ NPc.history p) (hp : p = some (NPc.end64 o')) : o' = o := by
  subst hp
  simp [NPc.history] at h
  exact h.symm

/-- C6: on a limiter built with `max`, along any interleaving, when a call of
`Do` has ended with the panic `v` propagating to its caller, its history is:
admitted, callback invoked, callback ended by the panic `v`, `count--`, and for
`Blocking` one signal; so the bookkeeping has run by then.  A panic `v` of the
callback is never swallowed or changed: a call whose callback panicked with `v`
cannot end `Do` in any other way than with that panic.  And such a call does
end: running alone, it reaches the end of `Do` with the panic propagating and
`count` as it was before the call. -/
theorem panic_propagates_after_release (max : Nat) (hpos : 1 ≤ max) (hlt : max < uintMod) :
    (∀ sched s c v, brun (binit max) sched = some s →
      (s.pcs[c]? = some (BPc.done (Outcome.panicked v)) →
        btrace c sched = [BEv.inc, BEv.invoke, BEv.finish (Outcome.panicked v), BEv.dec,
          BEv.signal]) ∧
      (BEv.finish (Outcome.panicked v) ∈ btrace c sched →
        ∀ o, s.pcs[c]? = some (BPc.done o) → o = Outcome.panicked v)) ∧
    (∀ (s : BSys) c v, s.l.locked = false → s.l.notify = [] → s.pcs[c]? = some BPc.lock35 →
      s.l.count < s.l.max → s.l.max < uintMod →
      brun s (bsolo c (Outcome.panicked v))
        = some { l := s.l, pcs := s.pcs.set c (BPc.done (Outcome.panicked v)) }) ∧
    (∀ sched s c v, nrun (ninit max) sched = some s →
      (s.pcs[c]? = some (NPc.end64 (Outcome.panicked v)) →
        ntrace c (ninit max) sched
          = [NEv.test true, NEv.inc, NEv.under, NEv.finish (Outcome.panicked v), NEv.dec]) ∧
      (NEv.finish (Outcome.panicked v) ∈ ntrace c (ninit max) sched →
        ∀ o, s.pcs[c]? = some (NPc.end64 o) → o = Outcome.panicked v)) ∧
    (∀ (s : NSys) c v, s.l.locked = false → s.pcs[c]? = some NPc.lock38 →
      s.l.count < s.l.max → s.l.max < uintMod →
      nrun s (nsoloUnder c (Outcome.panicked v))
        = some { l := s.l, pcs := s.pcs.set c (NPc.end64 (Outcome.panicked v)) }) := by
  refine ⟨?_, ?_, ?_, ?_⟩
  · intro sched s c v hr
    have e := btrace_of_init hpos hlt hr c
    rw [e]
    refine ⟨fun ho => by rw [ho]; rfl, ?_⟩
    intro hmem o ho
    exact BPc.history_finish _ _ _ hmem ho
  · intro s c v hl hn hc hlt' hm
    exact bsolo_run _ hl hc hlt' hm hn
  · intro sched s c v hr
    have e := ntrace_of_init hr c
    rw [e]
    refine ⟨fun ho => by rw [ho]; rfl, ?_⟩
    intro hmem o ho
    exact NPc.history_finish_nb _ _ _ hmem ho
  · intro s c v hl hc hlt' hm
    exact nsoloUnder_run _ hl hc hlt' hm

/-- Witness of C6: `max = 1`, one call whose callback panics with `7`, on
either limiter. -/
theorem panic_propagates_after_release_witness :
    brun (BSys.mk ⟨false, [], 0, 1⟩ [BPc.lock35]) (bsolo 0 (Outcome.panicked 7))
      = some (BSys.mk ⟨false, [], 0, 1⟩ [BPc.done (Outcome.panicked 7)]) ∧
    nrun (NSys.mk ⟨false, 0, 1⟩ [NPc.lock38]) (nsoloUnder 0 (Outcome.panicked 7))
      = some (NSys.mk ⟨false, 0, 1⟩ [NPc.end64 (Outcome.panicked 7)]) := by
  have h := panic_propagates_after_release 1 (by decide) (by decide)
  exact ⟨h.2.1 (BSys.mk ⟨false, [], 0, 1⟩ [BPc.lock35]) 0 7 rfl rfl rfl (by decide) (by decide),
    h.2.2.2 (NSys.mk ⟨false, 0, 1⟩ [NPc.lock38]) 0 7 rfl rfl (by decide) (by decide)⟩

theorem NPc.history_refused (p : Option NPc)
    (h : (NPc.history p).head? = some (NEv.test false)) :
    NEv.inc ∉ NPc.history p ∧ NEv.dec ∉ NPc.history p ∧ NEv.under ∉ NPc.history p := by
  cases p with
  | none => simp [NPc.history] at h
  | some p => cases p <;> simp [NPc.history] at h ⊢

theorem BPc.history_invoke (p : Option BPc) : (BPc.history p).count BEv.invoke ≤ 1 := by
  cases p with
  | none => simp [BPc.history]
  | some p => cases p <;> simp [BPc.history]

/-- What a step does to `count`: nothing, or it is an enabled `count++` at
line 39, or an enabled `count--` at line 50. -/
theorem bstep_count {max : Nat} {s s' : BSys} {a : BAct} (h : BInv max s)
    (hs : bstep s a = some s') :
    s'.l.count = s.l.count ∨
    (∃ c, a = BAct.inc c ∧ s.pcs[c]? = some BPc.inc39 ∧ s'.l.count = s.l.count + 1) ∨
    (∃ c o, a = BAct.dec c ∧ s.pcs[c]? = some (BPc.dec50 o) ∧ s'.l.count + 1 = s.l.count) := by
  cases a with
  | inc c =>
    simp only [bstep] at hs
    split at hs
    · rename_i hc
      simp only [Option.some.injEq] at hs
      subst hs
      exact Or.inr (Or.inl ⟨c, rfl, hc, uintInc_of_lt (h.inc_lt c hc) h.max_lt⟩)
    · exact absurd hs (by simp)
  | dec c =>
    simp only [bstep] at hs
    split at hs
    · rename_i o hc
      simp only [Option.some.injEq] at hs
      subst hs
      have hpos := h.count_pos hc rfl
      have hdec := uintDec_of_pos hpos h.count_lt_mod
      refine Or.inr (Or.inr ⟨c, o, rfl, hc, ?_⟩)
      show uintDec s.l.count + 1 = s.l.count
      omega
    · exact absurd hs (by simp)
  | call =>
    simp only [bstep, Option.some.injEq] at hs
    subst hs
    exact Or.inl rfl
  | lock c =>
    left
    simp only [bstep] at hs
    split at hs
    · exact absurd hs (by simp)
    · split at hs <;> (cases hs <;> rfl)
  | test c =>
    left
    simp only [bstep] at hs
    split at hs
    · split at hs <;> (simp only [Option.some.injEq] at hs; subst hs; rfl)
    · exact absurd hs (by simp)
  | unlock c =>
    left
    simp only [bstep] at hs
    split at hs <;> (cases hs <;> rfl)
  | invoke c =>
    left
    simp only [bstep] at hs
    split at hs <;> (cases hs <;> rfl)
  | finish c o =>
    left
    simp only [bstep] at hs
    split at hs <;> (cases hs <;> rfl)
  | signal c w =>
    left
    simp only [bstep] at hs
    split at hs
    · split at hs
      · split at hs <;> (cases hs <;> rfl)
      · split at hs <;> (cases hs <;> rfl)
    · exact absurd hs (by simp)

/-- A step contributes an event to the history of `c` only from the control
point of `c` at which that event happens. -/
theorem bev_enabled {s s' : BSys} {a : BAct} {c : Nat} {e : BEv}
    (hs : bstep s a = some s') (he : bev c a = some e) :
    ∃ p, s.pcs[c]? = some p ∧
      ((e = BEv.inc ∧ p = BPc.inc39) ∨ (e = BEv.invoke ∧ p = BPc.defer46) ∨
       (∃ o, e = BEv.finish o ∧ p = BPc.running) ∨ (∃ o, e = BEv.dec ∧ p = BPc.dec50 o) ∨
       (∃ o, e = BEv.signal ∧ p = BPc.signal56 o)) := by
  cases a with
  | call => simp [bev] at he
  | lock d => simp [bev] at he
  | test d => simp [bev] at he
  | unlock d => simp [bev] at he
  | inc d =>
    simp only [bev] at he
    split at he
    · rename_i hdc
      subst hdc
      simp only [Option.some.injEq] at he
      subst he
      simp only [bstep] at hs
      split at hs
      · rename_i hc
        exact ⟨_, hc, Or.inl ⟨rfl, rfl⟩⟩
      · exact absurd hs (by simp)
    · exact absurd he (by simp)
  | invoke d =>
    simp only [bev] at he
    split at he
    · rename_i hdc
      subst hdc
      simp only [Option.some.injEq] at he
      subst he
      simp only [bstep] at hs
      split at hs
      · rename_i hc
        exact ⟨_, hc, Or.inr (Or.inl ⟨rfl, rfl⟩)⟩
      · exact absurd hs (by simp)
    · exact absurd he (by simp)
  | finish d o =>
    simp only [bev] at he
    split at he
    · rename_i hdc
      subst hdc
      simp only [Option.some.injEq] at he
      subst he
      simp only [bstep] at hs
      split at hs
      · rename_i hc
        exact ⟨_, hc, Or.inr (Or.inr (Or.inl ⟨o, rfl, rfl⟩))⟩
      · exact absurd hs (by simp)
    · exact absurd he (by simp)
  | dec d =>
    simp only [bev] at he
    split at he
    · rename_i hdc
      subst hdc
      simp only [Option.some.injEq] at he
      subst he
      simp only [bstep] at hs
      split at hs
      · rename_i o hc
        exact ⟨_, hc, Or.inr (Or.inr (Or.inr (Or.inl ⟨o, rfl, rfl⟩)))⟩
      · exact absurd hs (by simp)
    · exact absurd he (by simp)
  | signal d w =>
    simp only [bev] at he
    split at he
    · rename_i hdc
      subst hdc
      simp only [Option.some.injEq] at he
      subst he
      simp only [bstep] at hs
      split at hs
      · rename_i o hc
        exact ⟨_, hc, Or.inr (Or.inr (Or.inr (Or.inr ⟨o, rfl, rfl⟩)))⟩
      · exact absurd hs (by simp)
    · exact absurd he (by simp)

/-- While the limiter is full no step admits a call: `count` does not grow and
a call with an empty history keeps it. -/
theorem bstep_full {max : Nat} {s s' : BSys} {a : BAct} (h : BInv max s)
    (hfull : s.l.count ≥ s.l.max) (hs : bstep s a = some s') :
    s'.l.count ≤ s.l.count ∧
    ∀ c : Nat, BPc.history s.pcs[c]? = [] → BPc.history s'.pcs[c]? = [] := by
  have hm := h.max_eq
  constructor
  · rcases bstep_count h hs with e | ⟨c, _, hc, _⟩ | ⟨c, o, _, _, e⟩
    · omega
    · have := h.inc_lt c hc
      omega
    · omega
  · intro c hc
    have e := bstep_history h hs c
    rw [hc, List.nil_append] at e
    rw [← e]
    cases hev : bev c a with
    | none => rfl
    | some ev =>
      obtain ⟨p, hp, hcase⟩ := bev_enabled hs hev
      rw [hp] at hc
      rcases hcase with ⟨_, rfl⟩ | ⟨_, rfl⟩ | ⟨o, _, rfl⟩ | ⟨o, _, rfl⟩ | ⟨o, _, rfl⟩
      · have := h.inc_lt c hp
        omega
      · simp [BPc.history] at hc
      · simp [BPc.history] at hc
      · simp [BPc.history] at hc
      · simp [BPc.history] at hc

theorem brunFull_history {max : Nat} {sched : List BAct} :
    ∀ {s s' : BSys}, BInv max s → brunFull s sched = some s' →
      s'.l.count ≤ s.l.count ∧
      ∀ c : Nat, BPc.history s.pcs[c]? = [] → BPc.history s'.pcs[c]? = [] := by
  induction sched with
  | nil =>
    intro s s' _ hr
    simp only [brunFull, Option.some.injEq] at hr
    subst hr
    exact ⟨Nat.le_refl _, fun _ hc => hc⟩
  | cons a as ih =>
    intro s s' h hr
    simp only [brunFull] at hr
    split at hr
    · rename_i hfull
      cases hst : bstep s a with
      | none => rw [hst] at hr; exact absurd hr (by simp)
      | some s1 =>
        rw [hst] at hr
        have h1 := bstep_full h hfull hst
        have h2 := ih (h.step hst) hr
        exact ⟨Nat.le_trans h2.1 h1.1, fun c hc => h2.2 c (h1.2 c hc)⟩
    · exact absurd hr (by simp)

/-- C7: for every `N >= 1`, on the blocking limiter `NewBlocking N`: `N` calls
can be admitted and left running, which gives `count = N`; a further call then
enters `Wait` at its check.  In every reachable state with `count >= max` no
`count++` is enabled and every check leads into `Wait`; and along any schedule
whose steps are all taken with `count >= max`, `count` does not grow and a
call that was not admitted stays so, its callback not invoked.  Once one of
the running calls releases, `count` is one less and the waiting call, woken by
the signal, is admitted by its own steps. -/
theorem blocking_waits_when_full (N : Nat) (hpos : 1 ≤ N) (hlt : N < uintMod) :
    NewBlocking N = Except.ok (binit N).l ∧
    brun (binit N) (bfill 0 N)
      = some { l := { locked := false, notify := [], count := N, max := N },
               pcs := List.replicate N BPc.running } ∧
    brun { l := { locked := false, notify := [], count := N, max := N },
           pcs := List.replicate N BPc.running } [BAct.call, BAct.lock N, BAct.test N]
      = some { l := { locked := false, notify := [N], count := N, max := N },
               pcs := List.replicate N BPc.running ++ [BPc.wait37] } ∧
    (∀ s : BSys, BReachable N s → s.l.count ≥ s.l.max →
      (∀ c, bstep s (BAct.inc c) = none) ∧
      (∀ c s', bstep s (BAct.test c) = some s' →
        s'.pcs[c]? = some BPc.wait37 ∧ c ∈ s'.l.notify) ∧
      (∀ sched s', brunFull s sched = some s' →
        s'.l.count ≤ s.l.count ∧
        ∀ c : Nat, BPc.history s.pcs[c]? = [] → BPc.history s'.pcs[c]? = [])) ∧
    (∀ (s : BSys) (a c : Nat) (o : Outcome), BReachable N s → s.l.locked = false →
      s.pcs[a]? = some BPc.running → s.pcs[c]? = some BPc.wait37 →
      ∃ s1 s2, brun s (brelease a o (some c)) = some s1 ∧
        s1.l.count + 1 = s.l.count ∧ s1.l.count < s1.l.max ∧
        s1.pcs[c]? = some BPc.relock37 ∧
        brun s1 (benter c) = some s2 ∧
        s2.pcs[c]? = some BPc.running ∧ s2.pcs[a]? = some (BPc.done o) ∧
        s2.l.count = s.l.count) := by
  refine ⟨?_, ?_, ?_, ?_, ?_⟩
  · have h0 : N ≠ 0 := by omega
    simp [NewBlocking, binit, h0]
  · have h := bfill_run N (binit N) rfl (by show 0 + N ≤ N; omega) hlt
    simpa [binit] using h
  · simp [brun, bstep]
  · intro s hr hfull
    have h := hr.inv
    have hm := h.max_eq
    refine ⟨?_, ?_, ?_⟩
    · intro c
      simp only [bstep]
      split
      · rename_i hc
        have := h.inc_lt c hc
        omega
      · rfl
    · intro c s' hs
      simp only [bstep] at hs
      split at hs
      · rename_i hc
        have hlen : c < s.pcs.length := (List.getElem?_eq_some.mp hc).1
        rw [if_pos hfull] at hs
        cases hs
        simp [hlen]
      · exact absurd hs (by simp)
    · intro sched s' hrun
      exact brunFull_history h hrun
  · intro s a c o hr hl ha hc
    have h := hr.inv
    have hm := h.max_eq
    have hle := h.count_le
    have hmlt := h.max_lt
    have hpos' := h.count_pos ha rfl
    have hcn : c ∈ s.l.notify := (h.notify_wait c).mpr hc
    have hca : c ≠ a := by
      intro e
      rw [e, ha] at hc
      exact absurd hc (by simp)
    have hlena : a < s.pcs.length := (List.getElem?_eq_some.mp ha).1
    have hlenc : c < s.pcs.length := (List.getElem?_eq_some.mp hc).1
    have h1 := brelease_run_some o hl ha hpos' h.count_lt_mod hcn hca
    have hc1 : ((s.pcs.set c BPc.relock37).set a (BPc.done o))[c]? = some BPc.relock37 := by
      rw [List.getElem?_set_ne (fun e => hca e.symm)]
      simp [hlenc]
    have h2 := benter_run
      (s := { l := { s.l with count := s.l.count - 1, notify := s.l.notify.erase c },
              pcs := (s.pcs.set c BPc.relock37).set a (BPc.done o) })
      (c := c) hl (Or.inr hc1) (by show s.l.count - 1 < s.l.max; omega)
      (by show s.l.max < uintMod; omega)
    refine ⟨_, _, h1, ?_, ?_, hc1, h2, ?_, ?_, ?_⟩
    · show s.l.count - 1 + 1 = s.l.count
      omega
    · show s.l.count - 1 < s.l.max
      omega
    · simp [hlenc]
    · show (((s.pcs.set c BPc.relock37).set a (BPc.done o)).set c BPc.running)[a]?
        = some (BPc.done o)
      rw [List.getElem?_set_ne hca]
      simp [hlena]
    · show s.l.count - 1 + 1 = s.l.count
      omega

/-- Witness of C7: `max = 2`; calls 0 and 1 are in flight, call 2 waits; when
call 0 completes, call 2 is woken and admitted. -/
theorem blocking_waits_when_full_witness :
    brun (binit 2) (bfill 0 2)
      = some (BSys.mk ⟨false, [], 2, 2⟩ [BPc.running, BPc.running]) ∧
    brun (BSys.mk ⟨false, [], 2, 2⟩ [BPc.running, BPc.running])
        [BAct.call, BAct.lock 2, BAct.test 2]
      = some (BSys.mk ⟨false, [2], 2, 2⟩ [BPc.running, BPc.running, BPc.wait37]) ∧
    (∃ s1 s2, brun (BSys.mk ⟨false, [2], 2, 2⟩ [BPc.running, BPc.running, BPc.wait37])
          (brelease 0 Outcome.returned (some 2)) = some s1 ∧
        s1.l.count + 1 = 2 ∧ s1.l.count < s1.l.max ∧
        s1.pcs[2]? = some BPc.relock37 ∧
        brun s1 (benter 2) = some s2 ∧
        s2.pcs[2]? = some BPc.running ∧ s2.pcs[0]? = some (BPc.done Outcome.returned) ∧
        s2.l.count = 2) ∧
    brun (BSys.mk ⟨false, [2], 2, 2⟩ [BPc.running, BPc.running, BPc.wait37])
        (brelease 0 Outcome.returned (some 2) ++ benter 2)
      = some (BSys.mk ⟨false, [], 2, 2⟩
          [BPc.done Outcome.returned, BPc.running, BPc.running]) := by
  have h := blocking_waits_when_full 2 (by decide) (by decide)
  exact ⟨h.2.1, h.2.2.1,
    h.2.2.2.2 (BSys.mk ⟨false, [2], 2, 2⟩ [BPc.running, BPc.running, BPc.wait37]) 0 2
      Outcome.returned
      ⟨by decide, ⟨false, [], 0, 2⟩,
        bfill 0 2 ++ [BAct.call, BAct.lock 2, BAct.test 2], rfl, rfl⟩
      rfl rfl rfl,
    rfl⟩

theorem set_keeps_wait {pcs : List BPc} {c t : Nat} {p : BPc} (p' : BPc)
    (hc : pcs[c]? = some p) (hp : p ≠ BPc.wait37) (ht : pcs[t]? = some BPc.wait37) :
    (pcs.set c p')[t]? = some BPc.wait37 := by
  have hct : c ≠ t := by
    intro e
    rw [e, ht] at hc
    exact hp (Option.some.inj hc).symm
  rw [List.getElem?_set_ne hct]
  exact ht

/-- A step that is not a signal wakes no suspended call. -/
theorem bstep_keeps_wait {s s' : BSys} {a : BAct} (hs : bstep s a = some s')
    (ha : ∀ c w, a ≠ BAct.signal c w) (t : Nat) (ht : s.pcs[t]? = some BPc.wait37) :
    s'.pcs[t]? = some BPc.wait37 := by
  cases a with
  | call =>
    simp only [bstep, Option.some.injEq] at hs
    subst hs
    have hlt : t < s.pcs.length := (List.getElem?_eq_some.mp ht).1
    show (s.pcs ++ [BPc.lock35])[t]? = some BPc.wait37
    rw [List.getElem?_append_left hlt]
    exact ht
  | lock c =>
    simp only [bstep] at hs
    split at hs
    · exact absurd hs (by simp)
    · split at hs <;> first
        | (cases hs; exact set_keeps_wait _ (by assumption) (by simp) ht)
        | cases hs
  | test c =>
    simp only [bstep] at hs
    split at hs
    · split at hs <;> (cases hs; exact set_keeps_wait _ (by assumption) (by simp) ht)
    · exact absurd hs (by simp)
  | inc c =>
    simp only [bstep] at hs
    split at hs <;> first
      | (cases hs; exact set_keeps_wait _ (by assumption) (by simp) ht)
      | cases hs
  | unlock c =>
    simp only [bstep] at hs
    split at hs <;> first
      | (cases hs; exact set_keeps_wait _ (by assumption) (by simp) ht)
      | cases hs
  | invoke c =>
    simp only [bstep] at hs
    split at hs <;> first
      | (cases hs; exact set_keeps_wait _ (by assumption) (by simp) ht)
      | cases hs
  | finish c o =>
    simp only [bstep] at hs
    split at hs <;> first
      | (cases hs; exact set_keeps_wait _ (by assumption) (by simp) ht)
      | cases hs
  | dec c =>
    simp only [bstep] at hs
    split at hs <;> first
      | (cases hs; exact set_keeps_wait _ (by assumption) (by simp) ht)
      | cases hs
  | signal c w => exact absurd rfl (ha c w)

theorem BPc.history_signal (p : Option BPc) : (BPc.history p).count BEv.signal ≤ 1 := by
  cases p with
  | none => simp [BPc.history]
  | some p => cases p <;> simp [BPc.history]

/-- C8, as stated, fails: with `max = 1`, take the reachable state in which
call 0 holds the mutex just before its `count--` and call 1 stands at line 38.
There `count >= max`, yet call 1 cannot take a step (it has to wait for the
mutex), and once call 0 has released, call 1 finds `count < max` at its check,
runs `count++` and invokes `underLimit`, not `overLimit`. -/
theorem nonblocking_full_on_arrival_admitted :
    NReachable 1 (NSys.mk ⟨true, 1, 1⟩ [NPc.dec58 Outcome.returned, NPc.lock38]) ∧
    (NSys.mk ⟨true, 1, 1⟩ [NPc.dec58 Outcome.returned, NPc.lock38]).l.count
      ≥ (NSys.mk ⟨true, 1, 1⟩ [NPc.dec58 Outcome.returned, NPc.lock38]).l.max ∧
    nstep (NSys.mk ⟨true, 1, 1⟩ [NPc.dec58 Outcome.returned, NPc.lock38]) (NAct.lock 1) = none ∧
    nrun (NSys.mk ⟨true, 1, 1⟩ [NPc.dec58 Outcome.returned, NPc.lock38])
        [NAct.dec 0, NAct.unlock 0, NAct.lock 1, NAct.test 1, NAct.inc 1, NAct.unlock 1,
          NAct.under 1]
      = some (NSys.mk ⟨false, 1, 1⟩ [NPc.end64 Outcome.returned, NPc.underRunning]) ∧
    ntrace 1 (NSys.mk ⟨true, 1, 1⟩ [NPc.dec58 Outcome.returned, NPc.lock38])
        [NAct.dec 0, NAct.unlock 0, NAct.lock 1, NAct.test 1, NAct.inc 1, NAct.unlock 1,
          NAct.under 1]
      = [NEv.test true, NEv.inc, NEv.under] :=
  ⟨⟨by decide, ⟨false, 0, 1⟩,
      NAct.call :: (nenter 0 ++ [NAct.call, NAct.finish 0 Outcome.returned, NAct.lock 0]),
      rfl, rfl⟩,
    by decide, rfl, rfl, rfl⟩

/-- C8, amended: take any state of a non-blocking limiter in which call `c`
makes its check at line 39 (it holds the mutex) and finds `count >= max`.  By
its own steps, none of which has to wait for another call, the call unlocks,
invokes `overLimit` and ends `Do`; `count` is the same after every one of
these steps, and the call runs no `count++`, no `count--` and never
`underLimit`.  From line 42 on every step of the call is enabled in every
state and leaves `count` alone.  A call still at line 38 is decided by the
count at its check: when the mutex is free and `count >= max` its own steps
lead to `overLimit`.  For every `N >= 1`: with `max = N`, `N` calls can be
admitted and left running; a further call is then refused; and after one of
the `N` has completed a fresh call invokes `underLimit`. -/
theorem nonblocking_refusal (N : Nat) (hpos : 1 ≤ N) (hlt : N < uintMod) :
    (∀ (s : NSys) c o, s.pcs[c]? = some NPc.test39 → s.l.count ≥ s.l.max →
      nrun s (nreject c o)
        = some { l := { s.l with locked := false }, pcs := s.pcs.set c (NPc.ret44 o) } ∧
      ntrace c s (nreject c o) = [NEv.test false, NEv.over, NEv.finish o] ∧
      ∀ k, ∃ s', nrun s ((nreject c o).take k) = some s' ∧ s'.l.count = s.l.count) ∧
    (∀ (s : NSys) c,
      (s.pcs[c]? = some NPc.unlock42 →
        nstep s (NAct.unlock c)
          = some { l := { s.l with locked := false }, pcs := s.pcs.set c NPc.over43 }) ∧
      (s.pcs[c]? = some NPc.over43 →
        nstep s (NAct.over c) = some { l := s.l, pcs := s.pcs.set c NPc.overRunning }) ∧
      (s.pcs[c]? = some NPc.overRunning → ∀ o,
        nstep s (NAct.finish c o) = some { l := s.l, pcs := s.pcs.set c (NPc.ret44 o) })) ∧
    (∀ (s : NSys) c o, s.l.locked = false → s.pcs[c]? = some NPc.lock38 →
      s.l.count ≥ s.l.max →
      nrun s (nrefuse c) = some { l := s.l, pcs := s.pcs.set c NPc.overRunning } ∧
      nrun s (nsoloOver c o) = some { l := s.l, pcs := s.pcs.set c (NPc.ret44 o) } ∧
      ntrace c s (nsoloOver c o) = [NEv.test false, NEv.over, NEv.finish o] ∧
      ∀ k, ∃ s', nrun s ((nsoloOver c o).take k) = some s' ∧ s'.l.count = s.l.count) ∧
    (∀ sched s c, nrun (ninit N) sched = some s →
      (ntrace c (ninit N) sched).head? = some (NEv.test false) →
      NEv.inc ∉ ntrace c (ninit N) sched ∧ NEv.dec ∉ ntrace c (ninit N) sched ∧
      NEv.under ∉ ntrace c (ninit N) sched) ∧
    nrun (ninit N) (nfill 0 N)
      = some { l := { locked := false, count := N, max := N },
               pcs := List.replicate N NPc.underRunning } ∧
    (∀ o, nrun { l := { locked := false, count := N, max := N },
                 pcs := List.replicate N NPc.underRunning } (NAct.call :: nsoloOver N o)
      = some { l := { locked := false, count := N, max := N },
               pcs := List.replicate N NPc.underRunning ++ [NPc.ret44 o] }) ∧
    (∀ o o', nrun { l := { locked := false, count := N, max := N },
                    pcs := List.replicate N NPc.underRunning ++ [NPc.ret44 o] }
        (nrelease 0 o' ++ NAct.call :: nenter (N + 1))
      = some { l := { locked := false, count := N, max := N },
               pcs := (List.replicate N NPc.underRunning ++ [NPc.ret44 o]).set 0 (NPc.end64 o')
                 ++ [NPc.underRunning] }) := by
  refine ⟨?_, ?_, ?_, ?_, ?_, ?_, ?_⟩
  · intro s c o hc hge
    have hlen : c < s.pcs.length := (List.getElem?_eq_some.mp hc).1
    have hr : nrun s (nreject c o)
        = some { l := { s.l with locked := false }, pcs := s.pcs.set c (NPc.ret44 o) } := by
      simp [nreject, nrun, nstep, hc, hlen, hge]
    refine ⟨hr, ?_, ?_⟩
    · have h := nrun_history c hr
      rw [hc] at h
      simpa [NPc.history, hlen] using h
    · intro k
      rcases k with _ | _ | _ | _ | _ | k <;>
        simp [nreject, nrun, nstep, hc, hlen, hge]
  · intro s c
    refine ⟨?_, ?_, ?_⟩
    · intro hc
      simp [nstep, hc]
    · intro hc
      simp [nstep, hc]
    · intro hc o
      simp [nstep, hc]
  · intro s c o hl hc hge
    have hlen : c < s.pcs.length := (List.getElem?_eq_some.mp hc).1
    have hr := nsoloOver_run o hl hc hge
    refine ⟨nrefuse_run hl hc hge, hr, ?_, ?_⟩
    · have h := nrun_history c hr
      rw [hc] at h
      simpa [NPc.history, hlen] using h
    · intro k
      obtain ⟨l, pcs⟩ := s
      obtain ⟨locked, count, max⟩ := l
      simp only at hl hge hc hlen
      subst hl
      rcases k with _ | _ | _ | _ | _ | k <;>
        simp [nsoloOver, nrefuse, nrun, nstep, hc, hlen, hge]
  · intro sched s c hr hhead
    rw [ntrace_of_init hr c] at hhead ⊢
    exact NPc.history_refused _ hhead
  · have h := nfill_run N (ninit N) rfl (by show 0 + N ≤ N; omega) hlt
    simpa [ninit] using h
  · intro o
    have h2 := nsoloOver_run
      (s := { l := { locked := false, count := N, max := N },
              pcs := List.replicate N NPc.underRunning ++ [NPc.lock38] })
      (c := N) o rfl
      (by simp)
      (Nat.le_refl N)
    have h3 : (List.replicate N NPc.underRunning ++ [NPc.lock38]).set N (NPc.ret44 o)
        = List.replicate N NPc.underRunning ++ [NPc.ret44 o] := by
      simp
    rw [nrun_cons]
    simp only [nstep, Option.some_bind]
    rw [h2, h3]
  · intro o o'
    have hget0 : (List.replicate N NPc.underRunning ++ [NPc.ret44 o])[0]?
        = some NPc.underRunning := by
      rw [List.getElem?_append_left (by simp; omega)]
      simp [List.getElem?_replicate]
      omega
    have h1 := nrelease_run
      (s := { l := { locked := false, count := N, max := N },
              pcs := List.replicate N NPc.underRunning ++ [NPc.ret44 o] })
      (c := 0) o' rfl hget0 hpos hlt
    have h2 := nenter_run
      (s := { l := { locked := false, count := N - 1, max := N },
              pcs := (List.replicate N NPc.underRunning ++ [NPc.ret44 o]).set 0 (NPc.end64 o')
                ++ [NPc.lock38] })
      (c := N + 1) rfl
      (by simp)
      (by show N - 1 < N; omega) hlt
    have h3 : ((List.replicate N NPc.underRunning ++ [NPc.ret44 o]).set 0 (NPc.end64 o')
          ++ [NPc.lock38]).set (N + 1) NPc.underRunning
        = (List.replicate N NPc.underRunning ++ [NPc.ret44 o]).set 0 (NPc.end64 o')
          ++ [NPc.underRunning] := by
      simp
    have h4 : N - 1 + 1 = N := by omega
    rw [nrun_append, h1, Option.some_bind, nrun_cons]
    simp only [nstep, Option.some_bind]
    rw [h2, h3]
    simp only [h4]

/-- Witness of the amended C8: `max = 2`; calls 0 and 1 are running
`underLimit`; call 2, at its check, is refused and ends `Do` with `count`
unchanged; call 0 completes, and the fresh call 3 invokes `underLimit`. -/
theorem nonblocking_refusal_witness :
    nrun (NSys.mk ⟨true, 2, 2⟩ [NPc.underRunning, NPc.underRunning, NPc.test39])
        (nreject 2 Outcome.returned)
      = some (NSys.mk ⟨false, 2, 2⟩
          [NPc.underRunning, NPc.underRunning, NPc.ret44 Outcome.returned]) ∧
    nrun (ninit 2) (nfill 0 2)
      = some (NSys.mk ⟨false, 2, 2⟩ [NPc.underRunning, NPc.underRunning]) ∧
    nrun (NSys.mk ⟨false, 2, 2⟩ [NPc.underRunning, NPc.underRunning])
        (NAct.call :: nsoloOver 2 Outcome.returned)
      = some (NSys.mk ⟨false, 2, 2⟩
          [NPc.underRunning, NPc.underRunning, NPc.ret44 Outcome.returned]) ∧
    nrun (NSys.mk ⟨false, 2, 2⟩
          [NPc.underRunning, NPc.underRunning, NPc.ret44 Outcome.returned])
        (nrelease 0 Outcome.returned ++ NAct.call :: nenter 3)
      = some (NSys.mk ⟨false, 2, 2⟩
          [NPc.end64 Outcome.returned, NPc.underRunning, NPc.ret44 Outcome.returned,
            NPc.underRunning]) := by
  have h := nonblocking_refusal 2 (by decide) (by decide)
  exact ⟨(h.1 (NSys.mk ⟨true, 2, 2⟩ [NPc.underRunning, NPc.underRunning, NPc.test39]) 2
      Outcome.returned rfl (by decide)).1,
    h.2.2.2.2.1, h.2.2.2.2.2.1 Outcome.returned,
    h.2.2.2.2.2.2 Outcome.returned Outcome.returned⟩

/-- C9, as stated, fails on two counts.  With `max = 1`, in the reachable state
where call 0 holds the mutex just before its `count++` and call 1 stands at
line 35, `count < max`, yet call 1 cannot lock, and after call 0 has
incremented and unlocked, the check of call 1 leads it into `Wait`.  With
`max = 2`, two calls arrive with `count = 0`; when call 1 is admitted between
the `Unlock` of call 0 and the invocation of its callback, the work of call 0
starts with `count = 2`, not `0 + 1`. -/
theorem blocking_waits_despite_free_slot :
    BReachable 1 (BSys.mk ⟨true, [], 0, 1⟩ [BPc.inc39, BPc.lock35]) ∧
    (BSys.mk ⟨true, [], 0, 1⟩ [BPc.inc39, BPc.lock35]).l.count
      < (BSys.mk ⟨true, [], 0, 1⟩ [BPc.inc39, BPc.lock35]).l.max ∧
    bstep (BSys.mk ⟨true, [], 0, 1⟩ [BPc.inc39, BPc.lock35]) (BAct.lock 1) = none ∧
    brun (BSys.mk ⟨true, [], 0, 1⟩ [BPc.inc39, BPc.lock35])
        [BAct.inc 0, BAct.unlock 0, BAct.lock 1, BAct.test 1]
      = some (BSys.mk ⟨false, [1], 1, 1⟩ [BPc.defer46, BPc.wait37]) ∧
    brun (binit 2) [BAct.call, BAct.call]
      = some (BSys.mk ⟨false, [], 0, 2⟩ [BPc.lock35, BPc.lock35]) ∧
    brun (BSys.mk ⟨false, [], 0, 2⟩ [BPc.lock35, BPc.lock35])
        [BAct.lock 0, BAct.test 0, BAct.inc 0, BAct.unlock 0,
          BAct.lock 1, BAct.test 1, BAct.inc 1, BAct.unlock 1, BAct.invoke 0]
      = some (BSys.mk ⟨false, [], 2, 2⟩ [BPc.running, BPc.defer46]) :=
  ⟨⟨by decide, ⟨false, [], 0, 1⟩,
      [BAct.call, BAct.call, BAct.lock 0, BAct.test 0], rfl, rfl⟩,
    by decide, rfl, rfl, rfl, rfl⟩

/-- While a call stands between its check and its `count++`, no step of any
call changes `count`. -/
theorem bstep_count_at_inc {max : Nat} {s s' : BSys} {a : BAct} {c : Nat} (h : BInv max s)
    (hc : s.pcs[c]? = some BPc.inc39) (hs : bstep s a = some s')
    (hc' : s'.pcs[c]? = some BPc.inc39) : s'.l.count = s.l.count := by
  rcases bstep_count h hs with e | ⟨d, ha, hd, _⟩ | ⟨d, o, _, hd, _⟩
  · exact e
  · have hdc : d = c := h.hold_unique d c _ _ hd hc rfl rfl
    subst hdc
    subst ha
    simp only [bstep, hc, Option.some.injEq] at hs
    subst hs
    have hlen : d < s.pcs.length := (List.getElem?_eq_some.mp hc).1
    simp [hlen] at hc'
  · have hdc : d = c := h.hold_unique d c _ _ hd hc rfl rfl
    subst hdc
    rw [hc] at hd
    exact absurd hd (by simp)

/-- C9, amended: take a reachable state of a blocking limiter built with `max`.
A call whose check at line 36 (made while it holds the mutex) finds
`count < max` does not enter `Wait`: the check leads to line 39.  At line 39
`count` is still under the limit and no step of another call can change it;
`count++` raises it by exactly one; the `Unlock` and the invocation of the
callback are enabled in every state, so from its check on the call never
waits.  When no other call steps in, the callback starts with the mutex free
and `count` one more than at the check, and whatever its outcome `o` the call
then runs to the end of `Do` with `count` as at the check; the same holds
from line 35 when the mutex is free.  Along any interleaving the callback is
invoked at most once, and when `Do` has ended the history of the call is
admission, one invocation, the end of the callback, release, signal: `Do`
ends only after the callback has. -/
theorem blocking_admits_under_limit (max : Nat) (s : BSys) (c : Nat)
    (hr : BReachable max s) :
    (s.pcs[c]? = some BPc.loop36 → s.l.count < s.l.max →
      bstep s (BAct.test c) = some { l := s.l, pcs := s.pcs.set c BPc.inc39 }) ∧
    (s.pcs[c]? = some BPc.inc39 →
      s.l.count < s.l.max ∧
      bstep s (BAct.inc c)
        = some { l := { s.l with count := s.l.count + 1 }, pcs := s.pcs.set c BPc.unlock40 } ∧
      ∀ a s', bstep s a = some s' → s'.pcs[c]? = some BPc.inc39 → s'.l.count = s.l.count) ∧
    (s.pcs[c]? = some BPc.unlock40 →
      bstep s (BAct.unlock c)
        = some { l := { s.l with locked := false }, pcs := s.pcs.set c BPc.defer46 }) ∧
    (s.pcs[c]? = some BPc.defer46 →
      bstep s (BAct.invoke c) = some { l := s.l, pcs := s.pcs.set c BPc.running }) ∧
    (s.pcs[c]? = some BPc.loop36 → s.l.count < s.l.max →
      brun s (bpass c)
        = some { l := { locked := false, notify := s.l.notify, count := s.l.count + 1,
                        max := s.l.max },
                 pcs := s.pcs.set c BPc.running } ∧
      ∀ o, ∃ w s', brun s (bpass c ++ brelease c o w) = some s' ∧
        s'.pcs[c]? = some (BPc.done o) ∧ s'.l.count = s.l.count) ∧
    (s.pcs[c]? = some BPc.lock35 → s.l.locked = false → s.l.count < s.l.max →
      brun s (benter c)
        = some { l := { locked := false, notify := s.l.notify, count := s.l.count + 1,
                        max := s.l.max },
                 pcs := s.pcs.set c BPc.running } ∧
      ∀ o, ∃ w s', brun s (benter c ++ brelease c o w) = some s' ∧
        s'.pcs[c]? = some (BPc.done o) ∧ s'.l.count = s.l.count) ∧
    (BPc.history s.pcs[c]? = [] → ∀ sched s', brun s sched = some s' →
      btrace c sched = BPc.history s'.pcs[c]? ∧
      (btrace c sched).count BEv.invoke ≤ 1 ∧
      ∀ o, s'.pcs[c]? = some (BPc.done o) →
        btrace c sched = [BEv.inc, BEv.invoke, BEv.finish o, BEv.dec, BEv.signal]) := by
  have h := hr.inv
  have hm : s.l.max < uintMod := by rw [h.max_eq]; exact h.max_lt
  have hmeq := h.max_eq
  -- the end of `Do` from the state in which the callback has just been invoked
  have hend : ∀ (pre : List BAct) (hc : c < s.pcs.length) (hnw : s.pcs[c]? ≠ some BPc.wait37),
      s.l.count < s.l.max →
      brun s pre
        = some { l := { locked := false, notify := s.l.notify, count := s.l.count + 1,
                        max := s.l.max },
                 pcs := s.pcs.set c BPc.running } →
      ∀ o, ∃ w s', brun s (pre ++ brelease c o w) = some s' ∧
        s'.pcs[c]? = some (BPc.done o) ∧ s'.l.count = s.l.count := by
    intro pre hlen hnw hlt hpre o
    cases hn : s.l.notify with
    | nil =>
      have hrel := brelease_run_none
        (s := { l := { locked := false, notify := s.l.notify, count := s.l.count + 1,
                       max := s.l.max },
                pcs := s.pcs.set c BPc.running })
        (c := c) o rfl (by simp [hlen]) (by simp) (by show s.l.count + 1 < uintMod; omega) hn
      exact ⟨none, _, by rw [brun_append, hpre, Option.some_bind]; exact hrel,
        by simp [hlen], by simp⟩
    | cons t ts =>
      have ht : t ∈ s.l.notify := by rw [hn]; simp
      have htw : s.pcs[t]? = some BPc.wait37 := (h.notify_wait t).mp ht
      have htc : t ≠ c := by
        intro e
        rw [e] at htw
        exact hnw htw
      have hrel := brelease_run_some
        (s := { l := { locked := false, notify := s.l.notify, count := s.l.count + 1,
                       max := s.l.max },
                pcs := s.pcs.set c BPc.running })
        (c := c) (t := t) o rfl (by simp [hlen]) (by simp)
        (by show s.l.count + 1 < uintMod; omega) ht htc
      exact ⟨some t, _, by rw [brun_append, hpre, Option.some_bind]; exact hrel,
        by simp [hlen], by simp⟩
  refine ⟨?_, ?_, ?_, ?_, ?_, ?_, ?_⟩
  · intro hc hlt
    have hnge : ¬ (s.l.count ≥ s.l.max) := by omega
    simp [bstep, hc, hnge]
  · intro hc
    have hlt := h.inc_lt c hc
    refine ⟨by omega, ?_, ?_⟩
    · have hinc : uintInc s.l.count = s.l.count + 1 := uintInc_of_lt hlt h.max_lt
      simp [bstep, hc, hinc]
    · intro a s' hs hc'
      exact bstep_count_at_inc h hc hs hc'
  · intro hc
    simp [bstep, hc]
  · intro hc
    simp [bstep, hc]
  · intro hc hlt
    have hlen : c < s.pcs.length := (List.getElem?_eq_some.mp hc).1
    have hnge : ¬ (s.l.count ≥ s.l.max) := by omega
    have hinc : uintInc s.l.count = s.l.count + 1 := uintInc_of_lt hlt hm
    have hpre : brun s (bpass c)
        = some { l := { locked := false, notify := s.l.notify, count := s.l.count + 1,
                        max := s.l.max },
                 pcs := s.pcs.set c BPc.running } := by
      simp [bpass, brun, bstep, hc, hlen, hnge, hinc]
    exact ⟨hpre, hend _ hlen (by rw [hc]; simp) hlt hpre⟩
  · intro hc hl hlt
    have hlen : c < s.pcs.length := (List.getElem?_eq_some.mp hc).1
    have hadm := benter_run hl (Or.inl hc) hlt hm
    have hpre : brun s (benter c)
        = some { l := { locked := false, notify := s.l.notify, count := s.l.count + 1,
                        max := s.l.max },
                 pcs := s.pcs.set c BPc.running } := by
      rw [hadm]
      simp only [hl]
    exact ⟨hpre, hend _ hlen (by rw [hc]; simp) hlt hpre⟩
  · intro hc sched s' hrun
    have e := brun_history c h hrun
    rw [hc, List.nil_append] at e
    rw [e]
    refine ⟨rfl, BPc.history_invoke _, ?_⟩
    intro o ho
    rw [ho]; rfl

/-- Witness of the amended C9: `max = 2`; call 0 is running and call 1 makes
its check at line 36 with `count = 1`. -/
theorem blocking_admits_under_limit_witness :
    bstep (BSys.mk ⟨true, [], 1, 2⟩ [BPc.running, BPc.loop36]) (BAct.test 1)
      = some (BSys.mk ⟨true, [], 1, 2⟩ [BPc.running, BPc.inc39]) ∧
    brun (BSys.mk ⟨true, [], 1, 2⟩ [BPc.running, BPc.loop36]) (bpass 1)
      = some (BSys.mk ⟨false, [], 2, 2⟩ [BPc.running, BPc.running]) := by
  have h := blocking_admits_under_limit 2
    (BSys.mk ⟨true, [], 1, 2⟩ [BPc.running, BPc.loop36]) 1
    ⟨by decide, ⟨false, [], 0, 2⟩,
      BAct.call :: (benter 0 ++ [BAct.call, BAct.lock 1]), rfl, rfl⟩
  exact ⟨h.1 rfl (by decide), (h.2.2.2.2.1 rfl (by decide)).1⟩

theorem bheld_set_self {s : BSys} {c : Nat} {p : BPc} (hc : s.pcs[c]? = some p)
    (l' : Blocking) (p' : BPc) (hp' : p'.holds = true) :
    BHeld { l := l', pcs := s.pcs.set c p' } :=
  fun _ => ⟨c, p', getElem?_set_self_of_some hc, hp'⟩

theorem bheld_set_other {s : BSys} (hh : BHeld s) {c : Nat}
    {p : BPc} (hc : s.pcs[c]? = some p) (hp : p.holds = false)
    (l' : Blocking) (p' : BPc) (hl : l'.locked = s.l.locked) :
    BHeld { l := l', pcs := s.pcs.set c p' } := by
  intro hlock
  have hlock' : s.l.locked = true := by rw [← hl]; exact hlock
  obtain ⟨i, q, hi, hq⟩ := hh hlock'
  have hic : c ≠ i := by
    intro e
    rw [e, hi] at hc
    have := Option.some.inj hc
    rw [this, hp] at hq
    exact absurd hq (by simp)
  exact ⟨i, q, by show (s.pcs.set c p')[i]? = some q; rw [List.getElem?_set_ne hic]; exact hi, hq⟩

theorem bheld_unlocked {s : BSys} (hl : s.l.locked = false) : BHeld s := by
  intro h
  rw [hl] at h
  exact absurd h (by simp)

theorem bheld_step {max : Nat} {s s' : BSys} {a : BAct} (h : BInv max s) (hh : BHeld s)
    (hs : bstep s a = some s') : BHeld s' := by
  cases a with
  | call =>
    simp only [bstep, Option.some.injEq] at hs
    subst hs
    intro hlock
    obtain ⟨i, q, hi, hq⟩ := hh hlock
    have hlt : i < s.pcs.length := (List.getElem?_eq_some.mp hi).1
    exact ⟨i, q, by show (s.pcs ++ [BPc.lock35])[i]? = some q
                    rw [List.getElem?_append_left hlt]; exact hi, hq⟩
  | lock c =>
    simp only [bstep] at hs
    split at hs
    · exact absurd hs (by simp)
    · split at hs
      · rename_i hc
        simp only [Option.some.injEq] at hs
        subst hs
        exact bheld_set_self hc _ _ rfl
      · rename_i hc
        simp only [Option.some.injEq] at hs
        subst hs
        exact bheld_set_self hc _ _ rfl
      · rename_i o hc
        simp only [Option.some.injEq] at hs
        subst hs
        exact bheld_set_self hc _ _ rfl
      · exact absurd hs (by simp)
  | test c =>
    simp only [bstep] at hs
    split at hs
    · rename_i hc
      split at hs
      · simp only [Option.some.injEq] at hs
        subst hs
        exact bheld_unlocked rfl
      · simp only [Option.some.injEq] at hs
        subst hs
        exact bheld_set_self hc _ _ rfl
    · exact absurd hs (by simp)
  | inc c =>
    simp only [bstep] at hs
    split at hs
    · rename_i hc
      simp only [Option.some.injEq] at hs
      subst hs
      exact bheld_set_self hc _ _ rfl
    · exact absurd hs (by simp)
  | unlock c =>
    simp only [bstep] at hs
    split at hs
    · simp only [Option.some.injEq] at hs
      subst hs
      exact bheld_unlocked rfl
    · simp only [Option.some.injEq] at hs
      subst hs
      exact bheld_unlocked rfl
    · exact absurd hs (by simp)
  | invoke c =>
    simp only [bstep] at hs
    split at hs
    · rename_i hc
      simp only [Option.some.injEq] at hs
      subst hs
      exact bheld_set_other hh hc rfl _ _ rfl
    · exact absurd hs (by simp)
  | finish c o =>
    simp only [bstep] at hs
    split at hs
    · rename_i hc
      simp only [Option.some.injEq] at hs
      subst hs
      exact bheld_set_other hh hc rfl _ _ rfl
    · exact absurd hs (by simp)
  | dec c =>
    simp only [bstep] at hs
    split at hs
    · rename_i o hc
      simp only [Option.some.injEq] at hs
      subst hs
      exact bheld_set_self hc _ _ rfl
    · exact absurd hs (by simp)
  | signal c w =>
    simp only [bstep] at hs
    split at hs
    · rename_i o hc
      split at hs
      · split at hs
        · simp only [Option.some.injEq] at hs
          subst hs
          exact bheld_set_other hh hc rfl _ _ rfl
        · exact absurd hs (by simp)
      · rename_i t
        split at hs
        · rename_i ht
          simp only [Option.some.injEq] at hs
          subst hs
          have htw : s.pcs[t]? = some BPc.wait37 := (h.notify_wait t).mp ht
          have htc : t ≠ c := by
            intro e
            rw [e, hc] at htw
            exact absurd htw (by simp)
          intro hlock
          obtain ⟨i, q, hi, hq⟩ := hh hlock
          have hit : t ≠ i := by
            intro e
            rw [e, hi] at htw
            have := Option.some.inj htw
            rw [this] at hq
            exact absurd hq (by simp [BPc.holds])
          have hic : c ≠ i := by
            intro e
            rw [e, hi] at hc
            have := Option.some.inj hc
            rw [this] at hq
            exact absurd hq (by simp [BPc.holds])
          refine ⟨i, q, ?_, hq⟩
          show ((s.pcs.set t BPc.relock37).set c (BPc.done o))[i]? = some q
          rw [List.getElem?_set_ne hic, List.getElem?_set_ne hit]
          exact hi
        · exact absurd hs (by simp)
    · exact absurd hs (by simp)

theorem bheld_run {max : Nat} {sched : List BAct} :
    ∀ {s s' : BSys}, BInv max s → BHeld s → brun s sched = some s' → BHeld s' := by
  induction sched with
  | nil =>
    intro s s' _ hh hr
    simp only [brun, Option.some.injEq] at hr
    subst hr
    exact hh
  | cons a as ih =>
    intro s s' h hh hr
    simp only [brun] at hr
    cases hst : bstep s a with
    | none => rw [hst] at hr; exact absurd hr (by simp)
    | some s1 =>
      rw [hst] at hr
      exact ih (h.step hst) (bheld_step h hh hst) hr

theorem BReachable.held {max : Nat} {s : BSys} (hr : BReachable max s) : BHeld s := by
  obtain ⟨hlt, l, sched, hnew, hrun⟩ := hr
  obtain ⟨hpos, hinit⟩ := NewBlocking_ok hnew
  rw [hinit] at hrun
  exact bheld_run (BInv.init hpos hlt) (bheld_unlocked rfl) hrun

/-- The call inside the mutex can always leave it by its own steps; no other
call moves, and these steps are no events of another call. -/
theorem bleave_run {s : BSys} {i : Nat} {p : BPc}
    (hi : s.pcs[i]? = some p) (hp : p.holds = true) :
    ∃ s', brun s (bleave s i p) = some s' ∧ s'.l.locked = false ∧
      (∀ (c : Nat) (q : BPc), c ≠ i → s.pcs[c]? = some q → s'.pcs[c]? = some q) ∧
      (∀ c : Nat, c ≠ i → btrace c (bleave s i p) = []) := by
  have hlen : i < s.pcs.length := (List.getElem?_eq_some.mp hi).1
  have keep1 : ∀ (a : BPc) (c : Nat) (q : BPc), c ≠ i → s.pcs[c]? = some q →
      (s.pcs.set i a)[c]? = some q := by
    intro a c q hci hq
    rw [List.getElem?_set_ne (fun e => hci e.symm)]
    exact hq
  have ev : ∀ c : Nat, c ≠ i → ¬ (i = c) := fun c hci e => hci e.symm
  cases p with
  | loop36 =>
    by_cases hge : s.l.count ≥ s.l.max
    · refine ⟨{ l := { s.l with locked := false, notify := s.l.notify ++ [i] },
                pcs := s.pcs.set i BPc.wait37 },
        by simp [bleave, brun, bstep, hi, hge], rfl, ?_, ?_⟩
      · intro c q hci hq
        exact keep1 _ c q hci hq
      · intro c hci
        simp [bleave, hge, btrace, bev]
    · refine ⟨{ l := { s.l with locked := false, count := uintInc s.l.count },
                pcs := s.pcs.set i BPc.defer46 },
        by simp [bleave, brun, bstep, hi, hge, hlen], rfl, ?_, ?_⟩
      · intro c q hci hq
        exact keep1 _ c q hci hq
      · intro c hci
        simp [bleave, hge, btrace, bev, ev c hci]
  | inc39 =>
    refine ⟨{ l := { s.l with locked := false, count := uintInc s.l.count },
              pcs := s.pcs.set i BPc.defer46 },
      by simp [bleave, brun, bstep, hi, hlen], rfl, ?_, ?_⟩
    · intro c q hci hq
      exact keep1 _ c q hci hq
    · intro c hci
      simp [bleave, btrace, bev, ev c hci]
  | unlock40 =>
    refine ⟨{ l := { s.l with locked := false }, pcs := s.pcs.set i BPc.defer46 },
      by simp [bleave, brun, bstep, hi], rfl, ?_, ?_⟩
    · intro c q hci hq
      exact keep1 _ c q hci hq
    · intro c hci
      simp [bleave, btrace, bev]
  | dec50 o =>
    refine ⟨{ l := { s.l with locked := false, count := uintDec s.l.count },
              pcs := s.pcs.set i (BPc.signal56 o) },
      by simp [bleave, brun, bstep, hi, hlen], rfl, ?_, ?_⟩
    · intro c q hci hq
      exact keep1 _ c q hci hq
    · intro c hci
      simp [bleave, btrace, bev, ev c hci]
  | dunlock51 o =>
    refine ⟨{ l := { s.l with locked := false }, pcs := s.pcs.set i (BPc.signal56 o) },
      by simp [bleave, brun, bstep, hi], rfl, ?_, ?_⟩
    · intro c q hci hq
      exact keep1 _ c q hci hq
    · intro c hci
      simp [bleave, btrace, bev]
  | lock35 => exact absurd hp (by simp [BPc.holds])
  | wait37 => exact absurd hp (by simp [BPc.holds])
  | relock37 => exact absurd hp (by simp [BPc.holds])
  | defer46 => exact absurd hp (by simp [BPc.holds])
  | running => exact absurd hp (by simp [BPc.holds])
  | dlock49 o => exact absurd hp (by simp [BPc.holds])
  | signal56 o => exact absurd hp (by simp [BPc.holds])
  | done o => exact absurd hp (by simp [BPc.holds])

/-- With the mutex free, a call whose callback has ended runs its deferred
function to the end by its own steps: `count--` under the lock, then `Unlock`,
then one `Signal`, which wakes one suspended call if there is any. -/
theorem bcleanup_run {max : Nat} {s : BSys} (h : BInv max s) {c : Nat} {o : Outcome}
    (hl : s.l.locked = false) (hc : s.pcs[c]? = some (BPc.dlock49 o)) :
    ∃ w s1 s2,
      brun s [BAct.lock c, BAct.dec c] = some s1 ∧
      s1.l.locked = true ∧ s1.l.count + 1 = s.l.count ∧
      s1.pcs[c]? = some (BPc.dunlock51 o) ∧ s1.l.notify = s.l.notify ∧
      brun s1 [BAct.unlock c, BAct.signal c w] = some s2 ∧
      s2.pcs[c]? = some (BPc.done o) ∧ s2.l.count = s1.l.count ∧ s2.l.locked = false ∧
      ((w = none ∧ s.l.notify = [] ∧ s2.l.notify = []) ∨
       (∃ t, w = some t ∧ t ∈ s.l.notify ∧ s.pcs[t]? = some BPc.wait37 ∧
          s2.pcs[t]? = some BPc.relock37 ∧ s2.l.notify = s.l.notify.erase t ∧
          s2.l.notify.length + 1 = s.l.notify.length)) := by
  have hlen : c < s.pcs.length := (List.getElem?_eq_some.mp hc).1
  have hpos := h.count_pos hc rfl
  have hdec := uintDec_of_pos hpos h.count_lt_mod
  have h1 : brun s [BAct.lock c, BAct.dec c]
      = some (BSys.mk ⟨true, s.l.notify, s.l.count - 1, s.l.max⟩
          (s.pcs.set c (BPc.dunlock51 o))) := by
    simp [brun, bstep, hl, hc, hlen, hdec]
  have hcnt : s.l.count - 1 + 1 = s.l.count := by omega
  by_cases hn : s.l.notify = []
  · have h2 : brun (BSys.mk ⟨true, s.l.notify, s.l.count - 1, s.l.max⟩
          (s.pcs.set c (BPc.dunlock51 o))) [BAct.unlock c, BAct.signal c none]
        = some (BSys.mk ⟨false, s.l.notify, s.l.count - 1, s.l.max⟩
            (s.pcs.set c (BPc.done o))) := by
      simp [brun, bstep, hlen, hn]
    exact ⟨none, _, _, h1, rfl, hcnt, by simp [hlen], rfl, h2, by simp [hlen], rfl, rfl,
      Or.inl ⟨rfl, hn, hn⟩⟩
  · obtain ⟨t, ht⟩ := List.exists_mem_of_ne_nil _ hn
    have htw : s.pcs[t]? = some BPc.wait37 := (h.notify_wait t).mp ht
    have hlent : t < s.pcs.length := (List.getElem?_eq_some.mp htw).1
    have htc : t ≠ c := by
      intro e
      rw [e, hc] at htw
      exact absurd htw (by simp)
    have hcomm : ((s.pcs.set c (BPc.signal56 o)).set t BPc.relock37).set c (BPc.done o)
        = (s.pcs.set t BPc.relock37).set c (BPc.done o) := by
      rw [List.set_comm _ _ _ (fun e => htc e.symm), List.set_set]
    have h2 : brun (BSys.mk ⟨true, s.l.notify, s.l.count - 1, s.l.max⟩
          (s.pcs.set c (BPc.dunlock51 o))) [BAct.unlock c, BAct.signal c (some t)]
        = some (BSys.mk ⟨false, s.l.notify.erase t, s.l.count - 1, s.l.max⟩
            ((s.pcs.set t BPc.relock37).set c (BPc.done o))) := by
      simp [brun, bstep, hlen, ht, hcomm]
    have hwake : ((s.pcs.set t BPc.relock37).set c (BPc.done o))[t]? = some BPc.relock37 := by
      rw [List.getElem?_set_ne (fun e => htc e.symm)]
      simp [hlent]
    have hlenn : (s.l.notify.erase t).length + 1 = s.l.notify.length := by
      have := List.length_erase_of_mem ht
      have hpos' : 0 < s.l.notify.length := List.length_pos_of_mem ht
      omega
    exact ⟨some t, _, _, h1, rfl, hcnt, by simp [hlen], rfl, h2, by simp [hlen], rfl, rfl,
      Or.inr ⟨t, rfl, ht, htw, hwake, rfl, hlenn⟩⟩

/-- C10: in a reachable state of a blocking limiter, a call whose callback has
ended (by a return or a panic, outcome `o`) does run its deferred function:
once the call that is inside the mutex, if any, has left it by its own steps,
the call locks, runs `count--` with the mutex locked, which lowers `count` by
one, unlocks, and runs one `Signal`, which ends `Do`.  The `Signal` wakes
nobody when no call is suspended and otherwise exactly one suspended call `t`,
which leaves `Wait` to lock again: the suspended calls are one fewer and every
other one stays suspended.  No step other than a `Signal` (so no step of an
admission) wakes a suspended call.  Along any interleaving a call signals at
most once and only after its `count--`, and when `Do` has ended its history is
admission, invocation, end of the callback, release, one signal. -/
theorem release_signals_one_waiter (max : Nat) (s : BSys) (hr : BReachable max s) :
    (∀ c s', bstep s (BAct.dec c) = some s' →
      s.l.locked = true ∧ s'.l.locked = true ∧ s'.l.count + 1 = s.l.count ∧
      ∃ o, s.pcs[c]? = some (BPc.dec50 o) ∧ s'.pcs[c]? = some (BPc.dunlock51 o)) ∧
    (∀ c w s', bstep s (BAct.signal c w) = some s' →
      (∃ o, s.pcs[c]? = some (BPc.signal56 o) ∧ s'.pcs[c]? = some (BPc.done o)) ∧
      ((w = none ∧ s.l.notify = [] ∧ s'.l.notify = []) ∨
       (∃ t, w = some t ∧ t ∈ s.l.notify ∧ s.pcs[t]? = some BPc.wait37 ∧
          s'.pcs[t]? = some BPc.relock37 ∧ s'.l.notify = s.l.notify.erase t ∧
          s'.l.notify.length + 1 = s.l.notify.length ∧
          ∀ u : Nat, u ≠ t → s.pcs[u]? = some BPc.wait37 → s'.pcs[u]? = some BPc.wait37))) ∧
    (∀ a s', bstep s a = some s' → (∀ c w, a ≠ BAct.signal c w) →
      ∀ t : Nat, s.pcs[t]? = some BPc.wait37 → s'.pcs[t]? = some BPc.wait37) ∧
    (∀ sched s' (c : Nat), brun s sched = some s' → BPc.history s.pcs[c]? = [] →
      (btrace c sched).count BEv.signal ≤ 1 ∧
      (btrace c sched).count BEv.signal ≤ (btrace c sched).count BEv.dec ∧
      ∀ o, s'.pcs[c]? = some (BPc.done o) →
        btrace c sched = [BEv.inc, BEv.invoke, BEv.finish o, BEv.dec, BEv.signal]) ∧
    (∀ c, s.pcs[c]? = some BPc.running → ∀ o,
      bstep s (BAct.finish c o) = some { l := s.l, pcs := s.pcs.set c (BPc.dlock49 o) }) ∧
    (∀ c o, s.pcs[c]? = some (BPc.dlock49 o) →
      ∃ pre w s0 s1 s2,
        (s.l.locked = false → pre = []) ∧ btrace c pre = [] ∧
        brun s pre = some s0 ∧ s0.l.locked = false ∧ s0.pcs[c]? = some (BPc.dlock49 o) ∧
        brun s0 [BAct.lock c, BAct.dec c] = some s1 ∧
        s1.l.locked = true ∧ s1.l.count + 1 = s0.l.count ∧
        s1.pcs[c]? = some (BPc.dunlock51 o) ∧ s1.l.notify = s0.l.notify ∧
        brun s1 [BAct.unlock c, BAct.signal c w] = some s2 ∧
        brun s0 (bcleanup c w) = some s2 ∧
        s2.pcs[c]? = some (BPc.done o) ∧ s2.l.count = s1.l.count ∧ s2.l.locked = false ∧
        ((w = none ∧ s0.l.notify = [] ∧ s2.l.notify = []) ∨
         (∃ t, w = some t ∧ t ∈ s0.l.notify ∧ s0.pcs[t]? = some BPc.wait37 ∧
            s2.pcs[t]? = some BPc.relock37 ∧ s2.l.notify = s0.l.notify.erase t ∧
            s2.l.notify.length + 1 = s0.l.notify.length))) := by
  have h := hr.inv
  refine ⟨?_, ?_, ?_, ?_, ?_, ?_⟩
  · intro c s' hs
    simp only [bstep] at hs
    split at hs
    · rename_i o hc
      simp only [Option.some.injEq] at hs
      subst hs
      have hlen : c < s.pcs.length := (List.getElem?_eq_some.mp hc).1
      have hl := h.hold_locked c _ hc rfl
      have hpos := h.count_pos hc rfl
      have hdec := uintDec_of_pos hpos h.count_lt_mod
      refine ⟨hl, ?_, ?_, o, hc, ?_⟩
      · dsimp only
        exact hl
      · show uintDec s.l.count + 1 = s.l.count
        omega
      · simp [hlen]
    · exact absurd hs (by simp)
  · intro c w s' hs
    simp only [bstep] at hs
    split at hs
    · rename_i o hc
      have hlen : c < s.pcs.length := (List.getElem?_eq_some.mp hc).1
      split at hs
      · split at hs
        · rename_i hn
          cases hs
          exact ⟨⟨o, hc, by simp [hlen]⟩, Or.inl ⟨rfl, hn, hn⟩⟩
        · exact absurd hs (by simp)
      · rename_i t
        split at hs
        · rename_i ht
          cases hs
          have htw : s.pcs[t]? = some BPc.wait37 := (h.notify_wait t).mp ht
          have hlent : t < s.pcs.length := (List.getElem?_eq_some.mp htw).1
          have htc : t ≠ c := by
            intro e
            rw [e, hc] at htw
            exact absurd htw (by simp)
          refine ⟨⟨o, hc, by simp [hlen]⟩, Or.inr ⟨t, rfl, ht, htw, ?_, rfl, ?_, ?_⟩⟩
          · show ((s.pcs.set t BPc.relock37).set c (BPc.done o))[t]? = some BPc.relock37
            rw [List.getElem?_set_ne (fun e => htc e.symm)]
            simp [hlent]
          · show (s.l.notify.erase t).length + 1 = s.l.notify.length
            have := List.length_erase_of_mem ht
            have hpos : 0 < s.l.notify.length := List.length_pos_of_mem ht
            omega
          · intro u hut hu
            show ((s.pcs.set t BPc.relock37).set c (BPc.done o))[u]? = some BPc.wait37
            have huc : u ≠ c := by
              intro e
              rw [e, hc] at hu
              exact absurd hu (by simp)
            rw [List.getElem?_set_ne (fun e => huc e.symm),
              List.getElem?_set_ne (fun e => hut e.symm)]
            exact hu
        · exact absurd hs (by simp)
    · exact absurd hs (by simp)
  · intro a s' hs ha t ht
    exact bstep_keeps_wait hs ha t ht
  · intro sched s' c hrun hc
    have e := brun_history c h hrun
    rw [hc, List.nil_append] at e
    rw [e]
    refine ⟨BPc.history_signal _, (BPc.history_counts _).2.2, ?_⟩
    intro o ho
    rw [ho]; rfl
  · intro c hc o
    simp [bstep, hc]
  · intro c o hc
    have fin : ∀ s0 : BSys, BInv max s0 → s0.l.locked = false →
        s0.pcs[c]? = some (BPc.dlock49 o) →
        ∃ w s1 s2,
          brun s0 [BAct.lock c, BAct.dec c] = some s1 ∧
          s1.l.locked = true ∧ s1.l.count + 1 = s0.l.count ∧
          s1.pcs[c]? = some (BPc.dunlock51 o) ∧ s1.l.notify = s0.l.notify ∧
          brun s1 [BAct.unlock c, BAct.signal c w] = some s2 ∧
          brun s0 (bcleanup c w) = some s2 ∧
          s2.pcs[c]? = some (BPc.done o) ∧ s2.l.count = s1.l.count ∧ s2.l.locked = false ∧
          ((w = none ∧ s0.l.notify = [] ∧ s2.l.notify = []) ∨
           (∃ t, w = some t ∧ t ∈ s0.l.notify ∧ s0.pcs[t]? = some BPc.wait37 ∧
              s2.pcs[t]? = some BPc.relock37 ∧ s2.l.notify = s0.l.notify.erase t ∧
              s2.l.notify.length + 1 = s0.l.notify.length)) := by
      intro s0 h0 hl0 hc0
      obtain ⟨w, s1, s2, r1, a1, a2, a3, a4, r2, b1, b2, b3, b4⟩ := bcleanup_run h0 hl0 hc0
      have hall : brun s0 (bcleanup c w) = some s2 := by
        have e : bcleanup c w = [BAct.lock c, BAct.dec c] ++ [BAct.unlock c, BAct.signal c w] :=
          rfl
        rw [e, brun_append, r1, Option.some_bind, r2]
      exact ⟨w, s1, s2, r1, a1, a2, a3, a4, r2, hall, b1, b2, b3, b4⟩
    by_cases hl : s.l.locked = false
    · obtain ⟨w, s1, s2, hrest⟩ := fin s h hl hc
      exact ⟨[], w, s, s1, s2, fun _ => rfl, rfl, rfl, hl, hc, hrest⟩
    · have hl' : s.l.locked = true := by
        cases hb : s.l.locked with
        | true => rfl
        | false => exact absurd hb hl
      obtain ⟨i, p, hi, hp⟩ := hr.held hl'
      have hci : c ≠ i := by
        intro e
        rw [e, hi] at hc
        have := Option.some.inj hc
        rw [this] at hp
        exact absurd hp (by simp [BPc.holds])
      obtain ⟨s0, hrun0, hl0, hkeep, hquiet⟩ := bleave_run hi hp
      have h0 : BInv max s0 := h.run hrun0
      have hc0 : s0.pcs[c]? = some (BPc.dlock49 o) := hkeep c _ hci hc
      obtain ⟨w, s1, s2, hrest⟩ := fin s0 h0 hl0 hc0
      exact ⟨bleave s i p, w, s0, s1, s2, fun e => absurd e hl, hquiet c hci, hrun0, hl0, hc0,
        hrest⟩

/-- Witness of C10: `max = 1`; the callback of call 0 has returned and call 1 is
suspended in `Wait`; call 0 runs `count--` and its signal wakes call 1. -/
theorem release_signals_one_waiter_witness :
    (∃ pre w s0 s1 s2,
      ((BSys.mk ⟨false, [1], 1, 1⟩ [BPc.dlock49 Outcome.returned, BPc.wait37]).l.locked = false →
        pre = []) ∧
      btrace 0 pre = [] ∧
      brun (BSys.mk ⟨false, [1], 1, 1⟩ [BPc.dlock49 Outcome.returned, BPc.wait37]) pre
        = some s0 ∧
      s0.l.locked = false ∧ s0.pcs[0]? = some (BPc.dlock49 Outcome.returned) ∧
      brun s0 [BAct.lock 0, BAct.dec 0] = some s1 ∧
      s1.l.locked = true ∧ s1.l.count + 1 = s0.l.count ∧
      s1.pcs[0]? = some (BPc.dunlock51 Outcome.returned) ∧ s1.l.notify = s0.l.notify ∧
      brun s1 [BAct.unlock 0, BAct.signal 0 w] = some s2 ∧
      brun s0 (bcleanup 0 w) = some s2 ∧
      s2.pcs[0]? = some (BPc.done Outcome.returned) ∧ s2.l.count = s1.l.count ∧
      s2.l.locked = false ∧
      ((w = none ∧ s0.l.notify = [] ∧ s2.l.notify = []) ∨
       (∃ t, w = some t ∧ t ∈ s0.l.notify ∧ s0.pcs[t]? = some BPc.wait37 ∧
          s2.pcs[t]? = some BPc.relock37 ∧ s2.l.notify = s0.l.notify.erase t ∧
          s2.l.notify.length + 1 = s0.l.notify.length))) ∧
    brun (BSys.mk ⟨false, [1], 1, 1⟩ [BPc.dlock49 Outcome.returned, BPc.wait37])
        (bcleanup 0 (some 1))
      = some (BSys.mk ⟨false, [], 0, 1⟩ [BPc.done Outcome.returned, BPc.relock37]) :=
  ⟨(release_signals_one_waiter 1
      (BSys.mk ⟨false, [1], 1, 1⟩ [BPc.dlock49 Outcome.returned, BPc.wait37])
      ⟨by decide, ⟨false, [], 0, 1⟩,
        bfill 0 1 ++ [BAct.call, BAct.lock 1, BAct.test 1, BAct.finish 0 Outcome.returned],
        rfl, rfl⟩).2.2.2.2.2 0 Outcome.returned rfl,
    rfl⟩

end Golim
